import Mathlib

namespace GasableHub

/-!
Verification of the hybrid retrieval / fusion engine of the Gasable hub
(`webapp.py` and `gasable_hub/orch/search.py`).

The Python functions are shallowly embedded as executable Lean functions on
`List Char` / `String`, with Python floats modelled as exact rationals (`ℚ`)
and machine integers as `Int`/`Nat`.  Regular-expression substitutions are
translated into explicit left-to-right scanners (fuel-based where the scanner
consumes more than one character per step; the fuel is always instantiated
with the length of the input list, which is an upper bound on the number of
scan steps).  Character classes are modelled over the code's explicit
alphabets: ASCII, the Arabic block `U+0600`–`U+06FF` that the regexes name
explicitly, and the individual special characters appearing in the source
(soft hyphen, tatweel, dashes, ellipsis).  Python's `\s` is modelled as the
ASCII whitespace set and `\d` as ASCII plus Arabic-Indic digits.
-/

/-! ## Character classes -/

/-- Python `\s` (modelled as the ASCII whitespace characters). -/
def isSpacePy (c : Char) : Bool :=
  c = ' ' || c = '\t' || c = '\n' || c = '\r' || c = '\x0b' || c = '\x0c'

/-- Character-range test by code point. -/
def charBetween (c : Char) (lo hi : Nat) : Bool :=
  lo ≤ c.toNat && c.toNat ≤ hi

/-- `[A-Za-z]`. -/
def isLatinLetter (c : Char) : Bool :=
  charBetween c 65 90 || charBetween c 97 122

/-- `[؀-ۿ]` (the Arabic block named explicitly in the regexes). -/
def isArabicChar (c : Char) : Bool :=
  charBetween c 0x600 0x6FF

/-- Python `\d` (modelled as ASCII `0-9` plus the Arabic-Indic digit blocks). -/
def isDigitPy (c : Char) : Bool :=
  charBetween c 48 57 || charBetween c 0x660 0x669 || charBetween c 0x6F0 0x6F9

/-- Python `\w` over the modelled alphabet: Latin letters, digits, underscore,
and the Arabic block. -/
def isWordPy (c : Char) : Bool :=
  isLatinLetter c || isDigitPy c || c = '_' || isArabicChar c

/-! ## Whitespace collapsing and stripping (`re.sub(r"\s+", " ", ·)` and `str.strip`) -/

/-- `re.sub(r"\s+", " ", ·)`: replace every maximal whitespace run by a single
space.  The flag records whether the previous character was part of a
whitespace run already replaced. -/
def collapseWsAux : Bool → List Char → List Char
  | _, [] => []
  | prevSp, c :: r =>
    if isSpacePy c then
      if prevSp then collapseWsAux true r else ' ' :: collapseWsAux true r
    else c :: collapseWsAux false r

def collapseWs (l : List Char) : List Char := collapseWsAux false l

/-- `str.strip()` on the modelled whitespace set. -/
def stripPy (l : List Char) : List Char :=
  ((l.dropWhile isSpacePy).reverse.dropWhile isSpacePy).reverse

def pyStripStr (s : String) : String := ⟨stripPy s.data⟩

/-! ## `normalize_text` (webapp.py lines 236–242) -/

/-- Arabic tatweel `U+0640`. -/
def tatweel : Char := 'ـ'

/-- `re.sub("[ـ]", "", text)`. -/
def removeTatweel (l : List Char) : List Char := l.filter (fun c => c ≠ tatweel)

/-- `normalize_text`: drop tatweel, collapse whitespace runs, strip. -/
def normalize_text (s : String) : String :=
  if s.data = [] then ""
  else ⟨stripPy (collapseWs (removeTatweel s.data))⟩

/-! ### Whitespace-normalization lemmas -/

/-- Adjacent-character predicate: no two consecutive whitespace characters. -/
def NoWsPair (a b : Char) : Prop := ¬(isSpacePy a = true ∧ isSpacePy b = true)

/-! ## `clean_text` (webapp.py lines 245–271)

Each `re.sub` is modelled as an explicit left-to-right scanner.  A scanner that
can consume more than one character per step takes a fuel argument; the
wrappers instantiate the fuel with the input length, which bounds the number
of scan steps (every step consumes at least one character). -/

/-- Soft hyphen `U+00AD`. -/
def softHyphen : Char := '­'

/-- `[A-Za-z؀-ۿ]`, the letter class of the hyphenation-join regex. -/
def isHyphLetter (c : Char) : Bool := isLatinLetter c || isArabicChar c

def headIs (p : Char → Bool) : List Char → Bool
  | [] => false
  | c :: _ => p c

/-- `re.sub(r"(?<=[A-Za-z؀-ۿ])\-\s+(?=[A-Za-z؀-ۿ])", "", ·)`: delete a hyphen
followed by whitespace when flanked by letters.  The flag records whether the
character preceding the scan position (in the original string) is a letter. -/
def joinHyphFuel : Nat → Bool → List Char → List Char
  | 0, _, l => l
  | _ + 1, _, [] => []
  | f + 1, prevLetter, c :: rest =>
    if c == '-' && prevLetter && !(rest.takeWhile isSpacePy).isEmpty &&
        headIs isHyphLetter (rest.dropWhile isSpacePy) then
      joinHyphFuel f false (rest.dropWhile isSpacePy)
    else
      c :: joinHyphFuel f (isHyphLetter c) rest

def joinHyph (l : List Char) : List Char := joinHyphFuel l.length false l

/-- One `[gG][iI][dD]\d⁵` literal (the `gid\d{5}` pattern, case-insensitive). -/
def matchGidCore : List Char → Option (List Char)
  | g :: i :: d :: x1 :: x2 :: x3 :: x4 :: x5 :: rest =>
    if (g == 'g' || g == 'G') && (i == 'i' || i == 'I') && (d == 'd' || d == 'D') &&
        isDigitPy x1 && isDigitPy x2 && isDigitPy x3 && isDigitPy x4 && isDigitPy x5 then
      some rest
    else none
  | _ => none

/-- One repetition of `\s*/gid\d{5}` (case-insensitive). -/
def matchSlashGid (l : List Char) : Option (List Char) :=
  match l.dropWhile isSpacePy with
  | [] => none
  | c :: r => if c == '/' then matchGidCore r else none

/-- Greedily consume further repetitions of `\s*/gid\d{5}`. -/
def gidRepsFuel : Nat → List Char → List Char
  | 0, l => l
  | f + 1, l =>
    match matchSlashGid l with
    | some r => gidRepsFuel f r
    | none => l

/-- `re.sub(r"(?:\s*/gid\d{5})+", " ", ·, flags=re.IGNORECASE)`. -/
def gidPathSubFuel : Nat → List Char → List Char
  | 0, l => l
  | _ + 1, [] => []
  | f + 1, c :: rest =>
    match matchSlashGid (c :: rest) with
    | some r => ' ' :: gidPathSubFuel f (gidRepsFuel r.length r)
    | none => c :: gidPathSubFuel f rest

def gidPathSub (l : List Char) : List Char := gidPathSubFuel l.length l

/-- `re.sub(r"gid\d{5}", " ", ·, flags=re.IGNORECASE)`. -/
def gidTokSubFuel : Nat → List Char → List Char
  | 0, l => l
  | _ + 1, [] => []
  | f + 1, c :: rest =>
    match matchGidCore (c :: rest) with
    | some r => ' ' :: gidTokSubFuel f r
    | none => c :: gidTokSubFuel f rest

/-- `re.sub(r"\s*/\s*", " / ", ·)`. -/
def slashSubFuel : Nat → List Char → List Char
  | 0, l => l
  | _ + 1, [] => []
  | f + 1, c :: rest =>
    match (c :: rest).dropWhile isSpacePy with
    | [] => c :: slashSubFuel f rest
    | d :: r2 =>
      if d == '/' then ' ' :: '/' :: ' ' :: slashSubFuel f (r2.dropWhile isSpacePy)
      else c :: slashSubFuel f rest

/-- The character class kept by the gibberish filter
`[^\w؀-ۿ\.\,;:!\?\-()\[\]\x7b\x7d\s]+` (complement of this definition). -/
def isKeptPy (c : Char) : Bool :=
  isWordPy c || isArabicChar c || c == '.' || c == ',' || c == ';' || c == ':' ||
  c == '!' || c == '?' || c == '-' || c == '(' || c == ')' || c == '[' || c == ']' ||
  c.toNat == 123 || c.toNat == 125 || isSpacePy c

/-- `re.sub` of runs of non-kept characters by a single space. -/
def gibSubFuel : Nat → List Char → List Char
  | 0, l => l
  | _ + 1, [] => []
  | f + 1, c :: rest =>
    if isKeptPy c then c :: gibSubFuel f rest
    else ' ' :: gibSubFuel f (rest.dropWhile (fun d => !isKeptPy d))

/-- `t.replace("–","-").replace("—","-").replace("…","...")`. -/
def dashEllipsisSub : List Char → List Char
  | [] => []
  | c :: r =>
    (if c = '–' then ['-'] else if c = '—' then ['-']
     else if c = '…' then ['.', '.', '.'] else [c]) ++ dashEllipsisSub r

def isRepPunct (c : Char) : Bool := c == '.' || c == '!' || c == '?' || c == '،'

/-- `re.sub(r"([\.!?،])\1{2,}", r"\1\1", ·)`: squeeze 3+ repeated terminal
punctuation down to two. -/
def punctSubFuel : Nat → List Char → List Char
  | 0, l => l
  | _ + 1, [] => []
  | f + 1, c :: rest =>
    if isRepPunct c && 2 ≤ (rest.takeWhile (fun d => d == c)).length then
      c :: c :: punctSubFuel f (rest.dropWhile (fun d => d == c))
    else c :: punctSubFuel f rest

/-- `clean_text`: the aggressive OCR/PDF cleaning pass. -/
def clean_text (s : String) : String :=
  if s.data = [] then ""
  else
    let t1 := s.data.filter (fun c => c ≠ softHyphen)
    let t2 := joinHyph t1
    let t3 := gidPathSub t2
    let t4 := gidTokSubFuel t3.length t3
    let t5 := slashSubFuel t4.length t4
    let t6 := gibSubFuel t5.length t5
    let t7 := dashEllipsisSub t6
    let t8 := punctSubFuel t7.length t7
    ⟨stripPy (collapseWs t8)⟩

/-! ### Idempotence of `clean_text` on plain letters-and-whitespace strings -/

/-- The restricted alphabet on which the cleaning pipeline degenerates to
whitespace normalization: ASCII letters and whitespace. -/
def LatinWs (l : List Char) : Prop :=
  ∀ c ∈ l, isLatinLetter c = true ∨ isSpacePy c = true

/-! ## `_rrf_fuse` (webapp.py lines 736–748)

Candidate dictionaries are modelled as records; Python floats as `ℚ`; the two
insertion-ordered dicts `scores` and `meta` as association lists where update
keeps the original position and fresh keys are appended. -/

/-- A retrieval candidate `{"source": …, "id": …, "text": …, "score": …}`. -/
structure Cand where
  source : String
  id : String
  text : String
  score : ℚ
deriving DecidableEq

/-- A fused candidate: the retained candidate dict plus the `"rrf"` field. -/
structure FCand where
  source : String
  id : String
  text : String
  score : ℚ
  rrf : ℚ
deriving DecidableEq

/-- `f"{r['source']}:{r['id']}"`. -/
def candKey (c : Cand) : String := c.source ++ ":" ++ c.id

def fKey (fc : FCand) : String := fc.source ++ ":" ++ fc.id

def mkF (c : Cand) (v : ℚ) : FCand := ⟨c.source, c.id, c.text, c.score, v⟩

/-- Ordered-dict lookup. -/
def alookup {β : Type} (k : String) : List (String × β) → Option β
  | [] => none
  | (k', v) :: r => if k' = k then some v else alookup k r

/-- `scores[key] = scores.get(key, 0.0) + v`: in-place update keeps the entry
position, a fresh key is appended (Python dict insertion order). -/
def updAdd (k : String) (v : ℚ) : List (String × ℚ) → List (String × ℚ)
  | [] => [(k, v)]
  | (k', v') :: r => if k' = k then (k', v' + v) :: r else (k', v') :: updAdd k v r

/-- `if key not in meta: meta[key] = r`. -/
def metaIns (k : String) (c : Cand) : List (String × Cand) → List (String × Cand)
  | [] => [(k, c)]
  | (k', c') :: r => if k' = k then (k', c') :: r else (k', c') :: metaIns k c r

/-- One `(candidate, 1-indexed rank)` step of the fusion loop. -/
def rrfStepOne (kc : ℚ) (st : List (String × ℚ) × List (String × Cand))
    (p : Cand × ℕ) : List (String × ℚ) × List (String × Cand) :=
  (updAdd (candKey p.1) (1 / (kc + (p.2 : ℚ))) st.1, metaIns (candKey p.1) p.1 st.2)

/-- `enumerate(results, start=1)` as `(candidate, rank)` pairs. -/
def enumRank (l : List Cand) : List (Cand × ℕ) :=
  l.enum.map (fun p => (p.2, p.1 + 1))

/-- Stable descending insertion by a rational valuation (the unique stable
descending sort, hence extensionally Python's stable `sorted(..., reverse=True)`). -/
def insertDescBy {α : Type} (val : α → ℚ) (x : α) : List α → List α
  | [] => [x]
  | y :: r => if val y ≤ val x then x :: y :: r else y :: insertDescBy val x r

def sortDescBy {α : Type} (val : α → ℚ) : List α → List α
  | [] => []
  | x :: r => insertDescBy val x (sortDescBy val r)

/-- `_rrf_fuse`: accumulate reciprocal-rank scores and first-seen metadata,
then sort descending by fused score (stable) and attach the `rrf` field. -/
def _rrf_fuse (result_lists : List (List Cand)) (kc : ℚ) : List FCand :=
  let st := result_lists.foldl (fun st results => (enumRank results).foldl (rrfStepOne kc) st)
    ([], [])
  let ordered := sortDescBy Prod.snd st.1
  ordered.filterMap (fun p => (alookup p.1 st.2).map (fun c => mkF c p.2))

/-! Specification-side quantities for C1/C4 (derived from the same embedding,
used to state the claims): the flattened occurrence list, the per-key reciprocal
rank sum, and the first-seen key order. -/

/-- All `(candidate, rank)` occurrences across the input lists, in processing
order. -/
def allOcc (lists : List (List Cand)) : List (Cand × ℕ) :=
  (lists.map enumRank).flatten

/-- Sum of reciprocal-rank contributions of a key over an occurrence list. -/
def specContrib (kc : ℚ) (key : String) (occ : List (Cand × ℕ)) : ℚ :=
  ((occ.filter (fun p => candKey p.1 = key)).map (fun p => 1 / (kc + (p.2 : ℚ)))).sum

/-- The spec's fused score for a key: the sum over all its occurrences of
`1 / (K + rank)`. -/
def specScore (kc : ℚ) (key : String) (lists : List (List Cand)) : ℚ :=
  specContrib kc key (allOcc lists)

def seenIns (acc : List String) (k : String) : List String :=
  if k ∈ acc then acc else acc ++ [k]

/-- Keys in first-seen order across the input lists. -/
def firstSeenKeys (lists : List (List Cand)) : List String :=
  ((allOcc lists).map (fun p => candKey p.1)).foldl seenIns []

/-! ### Ordered-dict lemmas -/

/-- The scores component of the fusion fold. -/
def scoresFold (kc : ℚ) (sc : List (String × ℚ)) (occ : List (Cand × ℕ)) :
    List (String × ℚ) :=
  occ.foldl (fun sc p => updAdd (candKey p.1) (1 / (kc + (p.2 : ℚ))) sc) sc

/-- The metadata component of the fusion fold. -/
def metaFold (mt : List (String × Cand)) (occ : List (Cand × ℕ)) :
    List (String × Cand) :=
  occ.foldl (fun mt p => metaIns (candKey p.1) p.1 mt) mt

/-! ### The fused output characterized -/

/-- Scores dict after the whole fusion fold. -/
def fuseScores (kc : ℚ) (lists : List (List Cand)) : List (String × ℚ) :=
  scoresFold kc [] (allOcc lists)

/-- Metadata dict after the whole fusion fold. -/
def fuseMeta (lists : List (List Cand)) : List (String × Cand) :=
  metaFold [] (allOcc lists)

/-! ## `dedupe` (gasable_hub/orch/search.py lines 136–144) -/

/-- A hit row from the orchestration search path. -/
structure Hit where
  id : String
  score : ℚ
  txt : String
deriving DecidableEq

/-- `if not cur or h["score"] > cur["score"]: best[h["id"]] = h` — replace in
place (keeping dict position), append if the id is new. -/
def bestUpd (h : Hit) : List (String × Hit) → List (String × Hit)
  | [] => [(h.id, h)]
  | (k, c) :: r =>
    if k = h.id then
      (if c.score < h.score then (k, h) :: r else (k, c) :: r)
    else (k, c) :: bestUpd h r

def bestFoldFrom (b : List (String × Hit)) (hits : List Hit) : List (String × Hit) :=
  hits.foldl (fun b h => bestUpd h b) b

/-- `dedupe`: keep the best-scored hit per id, then sort descending by score
(stable). -/
def dedupe (hits : List Hit) : List Hit :=
  sortDescBy (fun x => x.score) ((bestFoldFrom [] hits).map Prod.snd)

/-! ## `_mmr_select` (webapp.py lines 785–830)

Maximal Marginal Relevance selection over fused candidates: token sets via the
`[A-Za-z؀-ۿ][A-Za-z0-9_؀-ۿ]{2,}` tokenizer, Jaccard similarity, greedy argmax
loop popping one candidate per iteration. -/

/-- `[A-Za-z؀-ۿ]`, the token-start class. -/
def isTokStart (c : Char) : Bool := isLatinLetter c || isArabicChar c

/-- `[A-Za-z0-9_؀-ۿ]`, the token-body class. -/
def isTokBody (c : Char) : Bool :=
  isLatinLetter c || charBetween c 48 57 || c = '_' || isArabicChar c

/-- `re.findall` of the token pattern: leftmost non-overlapping maximal
matches of start-char followed by at least two body chars. -/
def findTokFuel : Nat → List Char → List (List Char)
  | 0, _ => []
  | _ + 1, [] => []
  | f + 1, c :: rest =>
    if isTokStart c then
      if 2 ≤ (rest.takeWhile isTokBody).length then
        (c :: rest.takeWhile isTokBody) :: findTokFuel f (rest.dropWhile isTokBody)
      else findTokFuel f rest
    else findTokFuel f rest

/-- `_tokenize_for_similarity`: lower-case, tokenize, keep the first 2000
matches, as a set. -/
def _tokenize_for_similarity (s : String) : Finset String :=
  (((findTokFuel s.data.length (s.data.map Char.toLower)).map String.mk).take
    2000).toFinset

/-- `_jaccard_sim`. -/
def _jaccard_sim (a b : Finset String) : ℚ :=
  if a = ∅ ∨ b = ∅ then 0
  else ((a ∩ b).card : ℚ) /
    ((if (a ∪ b).card = 0 then 1 else (a ∪ b).card : ℕ) : ℚ)

/-- The greedy objective
`lambda * rrf - (1 - lambda) * max_similarity_to_selected`. -/
def mmrScore (lam : ℚ) (selected : List (FCand × Finset String))
    (cand : FCand × Finset String) : ℚ :=
  lam * cand.1.rrf - (1 - lam) *
    (selected.foldl
      (fun m s => if m < _jaccard_sim cand.2 s.2 then _jaccard_sim cand.2 s.2 else m) 0)

/-- `if (best is None) or (score > best[0]): best = (score, idx)` — the first
index wins ties because the update requires a strictly greater score. -/
def bestUpdOpt (sc : ℚ) (idx : ℕ) : Option (ℚ × ℕ) → Option (ℚ × ℕ)
  | none => some (sc, idx)
  | some (b, bi) => if b < sc then some (sc, idx) else some (b, bi)

/-- The inner argmax loop over `enumerate(remaining)`. -/
def bestLoop (lam : ℚ) (sel : List (FCand × Finset String)) :
    List (FCand × Finset String) → ℕ → Option (ℚ × ℕ) → Option (ℚ × ℕ)
  | [], _, best => best
  | c :: r, idx, best =>
    bestLoop lam sel r (idx + 1) (bestUpdOpt (mmrScore lam sel c) idx best)

/-- The `while remaining and len(selected) < k` loop; fuel is the length of
`remaining`, which strictly decreases each iteration. -/
def mmrFuel (lam : ℚ) : Nat → ℕ → List (FCand × Finset String) →
    List (FCand × Finset String) → List (FCand × Finset String)
  | 0, _, sel, _ => sel
  | fuel + 1, k, sel, rem =>
    if rem = [] ∨ k ≤ sel.length then sel
    else
      match bestLoop lam sel rem 0 none with
      | none => sel
      | some (_, idx) =>
        match rem[idx]? with
        | none => sel
        | some c => mmrFuel lam fuel k (sel ++ [c]) (rem.eraseIdx idx)

/-- `_mmr_select`. -/
def _mmr_select (candidates : List FCand) (k : ℕ) (lam : ℚ) : List FCand :=
  if candidates = [] then []
  else
    let tcs := candidates.map (fun c => (c, _tokenize_for_similarity c.text))
    (mmrFuel lam tcs.length k [] tcs).map Prod.fst

/-! ## `_rerank_llm` (webapp.py lines 751–782)

The language-model call and the JSON parser are external effects, so the model
takes the call outcome (`Except Unit (Option String)`: raised, or returned an
optional content string) and the parser (`String → Except Unit JV`) as
parameters.  JSON values are a standard inductive; Python's dynamic coercions
(`float(x)`, comparison and list-indexing TypeErrors, iteration over
non-lists) are modelled explicitly.  `float(string)` is modelled for plain
decimal literals (optional sign, digits, optional fraction) — exponents and
`inf`/`nan` are outside the modelled subset. -/

inductive JV where
  | jnull
  | jbool (b : Bool)
  | jint (n : ℤ)
  | jnum (q : ℚ)
  | jstr (s : String)
  | jarr (l : List JV)
  | jobj (fields : List (String × JV))

def isAsciiDigit (c : Char) : Bool := charBetween c 48 57

def digitsVal (l : List Char) : ℕ :=
  l.foldl (fun acc c => acc * 10 + (c.toNat - 48)) 0

/-- Python `float(s)` on the modelled literal subset. -/
def parseFloatStr (s : String) : Option ℚ :=
  let l := stripPy s.data
  let signed : ℚ × List Char :=
    match l with
    | '-' :: r => (-1, r)
    | '+' :: r => (1, r)
    | r => (1, r)
  let ip := signed.2.takeWhile isAsciiDigit
  let r1 := signed.2.dropWhile isAsciiDigit
  match r1 with
  | [] => if ip = [] then none else some (signed.1 * digitsVal ip)
  | '.' :: r2 =>
    let fp := r2.takeWhile isAsciiDigit
    let r3 := r2.dropWhile isAsciiDigit
    if r3 = [] ∧ (ip ≠ [] ∨ fp ≠ []) then
      some (signed.1 * ((digitsVal ip : ℚ) + (digitsVal fp : ℚ) / (10 ^ fp.length)))
    else none
  | _ => none

/-- Python `float(x)`: bools and numbers coerce, numeric strings parse,
everything else raises `TypeError`/`ValueError`. -/
def floatOfJV : JV → Except Unit ℚ
  | .jbool b => .ok (if b then 1 else 0)
  | .jint n => .ok (n : ℚ)
  | .jnum q => .ok q
  | .jstr s =>
    match parseFloatStr s with
    | some q => .ok q
    | none => .error ()
  | _ => .error ()

/-- `0 <= v["index"] < len(candidates)`: comparison against a non-numeric
value raises `TypeError` (bool counts as int). -/
def cmpRangeJV (len : ℕ) : JV → Except Unit Bool
  | .jint n => .ok (decide (0 ≤ n ∧ n < (len : ℤ)))
  | .jbool b => .ok (decide ((if b then (1 : ℤ) else 0) < (len : ℤ)))
  | .jnum q => .ok (decide (0 ≤ q ∧ q < (len : ℚ)))
  | _ => .error ()

/-- `candidates[v["index"]]` after the range check passed: only ints (and
bools) are valid list indices; a float raises `TypeError`. -/
def indexJV : JV → Except Unit ℕ
  | .jint n => .ok n.toNat
  | .jbool b => .ok (if b then 1 else 0)
  | _ => .error ()

/-- `for v in arr`: lists iterate; dicts iterate their keys; strings iterate
their characters; numbers and `None` raise `TypeError`. -/
def iterJV : JV → Except Unit (List JV)
  | .jarr l => .ok l
  | .jobj fields => .ok (fields.map (fun p => .jstr p.1))
  | .jstr s => .ok (s.data.map (fun c => .jstr (String.mk [c])))
  | _ => .error ()

/-- The list comprehension building `scored`: entries that are not dicts, lack
an `"index"` key, or whose integer index is out of range are skipped; a
malformed index or score raises, aborting the whole comprehension. -/
def scoreEntries (cands : List FCand) : List JV → Except Unit (List (FCand × ℚ))
  | [] => .ok []
  | v :: rest =>
    match v with
    | .jobj fields =>
      (match alookup "index" fields with
      | none => scoreEntries cands rest
      | some iv =>
        match cmpRangeJV cands.length iv with
        | .error e => .error e
        | .ok false => scoreEntries cands rest
        | .ok true =>
          match indexJV iv with
          | .error e => .error e
          | .ok i =>
            match cands[i]? with
            | none => .error ()
            | some c =>
              match floatOfJV ((alookup "score" fields).getD (.jint 0)) with
              | .error e => .error e
              | .ok q =>
                match scoreEntries cands rest with
                | .error e => .error e
                | .ok l => .ok ((c, q) :: l))
    | _ => scoreEntries cands rest

/-- `_rerank_llm`: the `"_rr"` working key is transient (consumed by the sort
and dropped), so the model returns the reordered candidates themselves. -/
def _rerank_llm (candidates : List FCand) (top : ℕ) (apiKey : Bool)
    (call : Except Unit (Option String)) (parse : String → Except Unit JV) :
    List FCand :=
  if apiKey = false ∨ candidates = [] then candidates.take top
  else
    match call with
    | .error _ => candidates.take top
    | .ok content =>
      let txt := match content with
        | none => "[]"
        | some s => if s = "" then "[]" else s
      let arrE : Except Unit JV :=
        if headIs (fun c => c = '[') (stripPy txt.data) then parse txt
        else .ok (.jarr [])
      match arrE with
      | .error _ => candidates.take top
      | .ok v =>
        match iterJV v with
        | .error _ => candidates.take top
        | .ok entries =>
          match scoreEntries candidates entries with
          | .error _ => candidates.take top
          | .ok scored => ((sortDescBy Prod.snd scored).map Prod.fst).take top

/-! ## `_generate_query_expansions` (webapp.py lines 833–875)

The language-model call and JSON parsing are parameters as for the reranker;
`RAG_EXPANSIONS` is the parameter `maxExp`.  `str(x)` on numbers is modelled
by exact decimal rendering (fuel-truncated for non-terminating expansions,
which cannot arise from binary floating-point inputs). -/

/-- Decimal digits of `num/den` (`num < den`), fuel-truncated. -/
def fracDigits : Nat → Nat → Nat → List Char
  | 0, _, _ => []
  | f + 1, num, den =>
    if num = 0 then []
    else Char.ofNat (48 + num * 10 / den) :: fracDigits f (num * 10 % den) den

/-- Python `str(float)` on the modelled subset. -/
def pyStrOfRat (q : ℚ) : String :=
  let sign := if q < 0 then "-" else ""
  let n := q.num.natAbs
  let d := q.den
  if n % d = 0 then sign ++ toString (n / d) ++ ".0"
  else sign ++ toString (n / d) ++ "." ++ String.mk (fracDigits 1200 (n % d) d)

/-- `str(x)` for `isinstance(x, (str, int, float))` — Python's `bool` is a
subclass of `int`, so booleans pass the check and stringify as
`True`/`False`. -/
def pyStrOfJVitem : JV → Option String
  | .jstr s => some s
  | .jint n => some (toString n)
  | .jnum q => some (pyStrOfRat q)
  | .jbool b => some (if b then "True" else "False")
  | _ => none

/-- `for v in arr.values(): if isinstance(v, list): arr = v; break`. -/
def firstListValue : List (String × JV) → Option JV
  | [] => none
  | (_, .jarr l) :: _ => some (.jarr l)
  | _ :: r => firstListValue r

/-- The success-path tail: stringify items, keep non-blank ones, and keep
those whose stripped form differs from the original query; cap at 4. -/
def expTail (qs : String) (l : List JV) : List String :=
  (((l.filterMap pyStrOfJVitem).filter (fun x => pyStripStr x ≠ "")).filter
    (fun x => pyStripStr x ≠ "" ∧ pyStripStr x ≠ qs)).take 4

/-- `_generate_query_expansions`. -/
def _generate_query_expansions (qs : String) (apiKey : Bool)
    (call : Except Unit (Option String)) (parse : String → Except Unit JV)
    (maxExp : ℕ) : List String :=
  if apiKey = false then [qs]
  else
    match call with
    | .error _ => ([qs] : List String).take (1 + maxExp)
    | .ok content =>
      match parse (match content with
        | none => "[]"
        | some s => if s = "" then "[]" else s) with
      | .error _ => ([qs] : List String).take (1 + maxExp)
      | .ok v =>
        match (match v with
          | .jobj fields => (firstListValue fields).getD (.jobj fields)
          | x => x) with
        | .jarr l => [qs] ++ expTail qs l
        | _ => ([qs] : List String).take (1 + maxExp)

/-! ## `_get_bm25_state` / `_build_bm25_index` (webapp.py lines 463–497)

The process-wide cache `BM25_STATE` is modelled as explicit state
(`Option BmIndex`), `time.time()` as an explicit `now` parameter, and each
corpus load/build as an increment of a build counter, so "the same cached
index object" is "the same `buildId`". -/

structure BmIndex where
  built_at : ℚ
  buildId : ℕ
deriving DecidableEq

/-- Result of one `_get_bm25_state()` call: the state used to answer, the new
stored state, the next build id, and whether a rebuild happened. -/
structure BmGet where
  used : BmIndex
  store : Option BmIndex
  nextId : ℕ
  rebuilt : Bool
deriving DecidableEq

/-- `_get_bm25_state`: rebuild iff never built or `now - built_at > ttl`. -/
def _get_bm25_state (ttl now : ℚ) (st : Option BmIndex) (nextId : ℕ) : BmGet :=
  match st with
  | none => ⟨⟨now, nextId⟩, some ⟨now, nextId⟩, nextId + 1, true⟩
  | some s =>
    if ttl < now - s.built_at then
      ⟨⟨now, nextId⟩, some ⟨now, nextId⟩, nextId + 1, true⟩
    else ⟨s, some s, nextId, false⟩

/-! ## `_load_corpus` / `_build_bm25_index` rows (webapp.py lines 435–482)

The three database tables are inputs (`(id, nullable text)` rows in their
`ORDER BY` order); `LIMIT` is the `take`.  `gasable_index` filters
`text IS NOT NULL AND text <> ''` in SQL; the other two sources only
`COALESCE` to the empty string. -/

def coalesce (o : Option String) : String := o.getD ""

/-- `_load_corpus`: ids are prefixed with their table; `clean_text` is applied
to every returned text. -/
def _load_corpus (gas docs embs : List (String × Option String)) (limit : ℕ) :
    List (String × String) :=
  ((gas.filter (fun r => r.2 ≠ none ∧ r.2 ≠ some "")).take limit).map
      (fun r => ("gasable_index:" ++ r.1, clean_text (coalesce r.2)))
    ++ (docs.take limit).map (fun r => ("documents:" ++ r.1, clean_text (coalesce r.2)))
    ++ (embs.take limit).map (fun r => ("embeddings:" ++ r.1, clean_text (coalesce r.2)))

/-- `str.split()`: whitespace-separated words, empties dropped. -/
def splitWsFuel : Nat → List Char → List (List Char)
  | 0, _ => []
  | _ + 1, [] => []
  | f + 1, c :: rest =>
    if isSpacePy c then splitWsFuel f rest
    else (c :: rest.takeWhile (fun d => !isSpacePy d)) ::
      splitWsFuel f (rest.dropWhile (fun d => !isSpacePy d))

def pySplit (s : String) : List String :=
  (splitWsFuel s.data.length s.data).map String.mk

/-- The `(doc_id, normalized text)` rows kept by `_build_bm25_index`:
documents with no tokens after normalization are dropped. -/
def _build_bm25_rows (gas docs embs : List (String × Option String)) (limit : ℕ) :
    List (String × String) :=
  (_load_corpus gas docs embs limit).filterMap (fun r =>
    if pySplit (normalize_text r.2) = [] then none
    else some (r.1, normalize_text r.2))

/-! ## `api_query` (webapp.py lines 1003–1007)

The handler strips `payload.get("q", "")` and returns a 400 "Empty query"
error before any retrieval runs.  The retrieval pipeline is a parameter: the
handler's result being independent of it expresses that no retrieval
sub-signal is invoked. -/

def api_query (retrieve : String → List (String × String × ℚ))
    (payloadQ : Option String) : Except String (List String) :=
  if pyStripStr (payloadQ.getD "") = "" then .error "Empty query"
  else .ok ((retrieve (pyStripStr (payloadQ.getD ""))).map (fun r => r.1))

/-! ## Theorems -/

theorem mem_collapseWsAux {c : Char} :
    ∀ (b : Bool) (l : List Char), c ∈ collapseWsAux b l → c = ' ' ∨ c ∈ l := by
  intro b l
  induction l generalizing b with
  | nil => simp [collapseWsAux]
  | cons d r ih =>
    intro hmem
    by_cases hd : isSpacePy d
    · cases b with
      | true =>
        simp only [collapseWsAux, hd, if_true] at hmem
        rcases ih true hmem with h | h
        · exact Or.inl h
        · exact Or.inr (List.mem_cons_of_mem _ h)
      | false =>
        simp only [collapseWsAux, hd, if_true] at hmem
        rcases List.mem_cons.mp hmem with h | h
        · exact Or.inl h
        · rcases ih true h with h' | h'
          · exact Or.inl h'
          · exact Or.inr (List.mem_cons_of_mem _ h')
    · simp only [collapseWsAux, hd, Bool.false_eq_true, if_false] at hmem
      rcases List.mem_cons.mp hmem with h | h
      · exact Or.inr (h ▸ List.mem_cons_self _ _)
      · rcases ih false h with h' | h'
        · exact Or.inl h'
        · exact Or.inr (List.mem_cons_of_mem _ h')

theorem spaces_collapseWsAux {c : Char} :
    ∀ (b : Bool) (l : List Char), c ∈ collapseWsAux b l → isSpacePy c → c = ' ' := by
  intro b l
  induction l generalizing b with
  | nil => simp [collapseWsAux]
  | cons d r ih =>
    intro hmem hsp
    by_cases hd : isSpacePy d
    · cases b with
      | true =>
        simp only [collapseWsAux, hd, if_true] at hmem
        exact ih true hmem hsp
      | false =>
        simp only [collapseWsAux, hd, if_true] at hmem
        rcases List.mem_cons.mp hmem with h | h
        · exact h
        · exact ih true h hsp
    · simp only [collapseWsAux, hd, Bool.false_eq_true, if_false] at hmem
      rcases List.mem_cons.mp hmem with h | h
      · exact absurd (h ▸ hsp) (by simpa using hd)
      · exact ih false h hsp

theorem chain'_collapseWsAux :
    ∀ (l : List Char),
      (List.Chain' NoWsPair (collapseWsAux false l)) ∧
      (∀ c, (collapseWsAux true l).head? = some c → isSpacePy c = false) ∧
      (List.Chain' NoWsPair (collapseWsAux true l)) := by
  intro l
  induction l with
  | nil => simp [collapseWsAux]
  | cons d r ih =>
    obtain ⟨ihF, ihHd, ihT⟩ := ih
    by_cases hd : isSpacePy d
    · refine ⟨?_, ?_, ?_⟩
      · show List.Chain' NoWsPair (collapseWsAux false (d :: r))
        simp only [collapseWsAux, if_pos hd, if_neg (by simp : ¬(false = true))]
        rw [List.chain'_cons']
        refine ⟨?_, ihT⟩
        intro y hy
        have := ihHd y hy
        simp [NoWsPair, this]
      · show ∀ c, (collapseWsAux true (d :: r)).head? = some c → isSpacePy c = false
        simp only [collapseWsAux, if_pos hd, if_pos rfl]
        exact ihHd
      · show List.Chain' NoWsPair (collapseWsAux true (d :: r))
        simp only [collapseWsAux, if_pos hd, if_pos rfl]
        exact ihT
    · refine ⟨?_, ?_, ?_⟩
      · show List.Chain' NoWsPair (collapseWsAux false (d :: r))
        simp only [collapseWsAux, if_neg hd]
        rw [List.chain'_cons']
        exact ⟨fun y _ => by simp [NoWsPair, hd], ihF⟩
      · show ∀ c, (collapseWsAux true (d :: r)).head? = some c → isSpacePy c = false
        simp only [collapseWsAux, if_neg hd, List.head?_cons]
        intro c hc
        cases hc
        simpa using hd
      · show List.Chain' NoWsPair (collapseWsAux true (d :: r))
        simp only [collapseWsAux, if_neg hd]
        rw [List.chain'_cons']
        exact ⟨fun y _ => by simp [NoWsPair, hd], ihF⟩

/-- On a list that is already whitespace-normalized (no adjacent whitespace,
all whitespace is `' '`), collapsing is the identity. -/
theorem collapseWsAux_eq_self :
    ∀ (l : List Char), List.Chain' NoWsPair l →
      (∀ c ∈ l, isSpacePy c → c = ' ') →
      (collapseWsAux false l = l ∧
        ((∀ c, l.head? = some c → isSpacePy c = false) → collapseWsAux true l = l)) := by
  intro l
  induction l with
  | nil => simp [collapseWsAux]
  | cons d r ih =>
    intro hch hsp
    have hchr : List.Chain' NoWsPair r := (List.chain'_cons'.mp hch).2
    have hrel : ∀ y ∈ r.head?, NoWsPair d y := (List.chain'_cons'.mp hch).1
    have hspr : ∀ c ∈ r, isSpacePy c → c = ' ' := fun c hc => hsp c (List.mem_cons_of_mem _ hc)
    obtain ⟨ihF, ihT⟩ := ih hchr hspr
    by_cases hd : isSpacePy d
    · have hd' : d = ' ' := hsp d (List.mem_cons_self _ _) hd
      have hrhd : ∀ c, r.head? = some c → isSpacePy c = false := by
        intro c hc
        have := hrel c hc
        simp only [NoWsPair, hd, true_and] at this
        exact eq_false_of_ne_true this
      constructor
      · simp only [collapseWsAux, if_pos hd, if_neg (by simp : ¬(false = true))]
        rw [ihT hrhd, hd']
      · intro hhd
        exact absurd (hhd d (by simp)) (by simp [hd])
    · constructor
      · simp only [collapseWsAux, if_neg hd]
        rw [ihF]
      · intro _
        simp only [collapseWsAux, if_neg hd]
        rw [ihF]

theorem head?_dropWhile {p : Char → Bool} :
    ∀ (l : List Char) (c : Char), (l.dropWhile p).head? = some c → p c = false := by
  intro l
  induction l with
  | nil => simp [List.dropWhile]
  | cons d r ih =>
    intro c hc
    rw [List.dropWhile_cons] at hc
    by_cases hd : p d
    · rw [if_pos hd] at hc
      exact ih c hc
    · rw [if_neg hd, List.head?_cons] at hc
      cases hc
      simpa using hd

theorem dropWhile_eq_self_of_head {p : Char → Bool} (l : List Char)
    (h : ∀ c, l.head? = some c → p c = false) : l.dropWhile p = l := by
  cases l with
  | nil => simp
  | cons d r =>
    have hd := h d (by simp)
    rw [List.dropWhile_cons, if_neg (by simp [hd])]

/-- `stripPy` is an infix of its argument. -/
theorem stripPy_within (l : List Char) : stripPy l <:+: l := by
  unfold stripPy
  have h1 : l.dropWhile isSpacePy <:+ l := List.dropWhile_suffix _
  have h2 : ((l.dropWhile isSpacePy).reverse.dropWhile isSpacePy).reverse <+:
      l.dropWhile isSpacePy := by
    have := List.dropWhile_suffix (l := (l.dropWhile isSpacePy).reverse) isSpacePy
    rw [← List.reverse_prefix] at this
    simpa using this
  exact h2.isInfix.trans h1.isInfix

theorem stripPy_head? (l : List Char) (c : Char) (h : (stripPy l).head? = some c) :
    isSpacePy c = false := by
  -- the stripped list is a prefix of `l.dropWhile isSpacePy`, whose head is not space
  have hpre : stripPy l <+: l.dropWhile isSpacePy := by
    unfold stripPy
    have := List.dropWhile_suffix (l := (l.dropWhile isSpacePy).reverse) isSpacePy
    rw [← List.reverse_prefix] at this
    simpa using this
  obtain ⟨t, ht⟩ := hpre
  rcases hs : stripPy l with _ | ⟨d, r⟩
  · rw [hs] at h; simp at h
  · rw [hs, List.head?_cons] at h
    cases h
    rw [hs] at ht
    have hhd : (l.dropWhile isSpacePy).head? = some c := by
      rw [← ht]; simp
    exact head?_dropWhile l c hhd

theorem stripPy_getLast? (l : List Char) (c : Char)
    (h : (stripPy l).getLast? = some c) : isSpacePy c = false := by
  unfold stripPy at h
  rw [List.getLast?_reverse] at h
  exact head?_dropWhile _ c h

/-- Stripping an already-stripped list is the identity. -/
theorem stripPy_idem (l : List Char) : stripPy (stripPy l) = stripPy l := by
  have h1 : (stripPy l).dropWhile isSpacePy = stripPy l :=
    dropWhile_eq_self_of_head _ (stripPy_head? l)
  have h2 : (stripPy l).reverse.dropWhile isSpacePy = (stripPy l).reverse := by
    apply dropWhile_eq_self_of_head
    intro c hc
    rw [List.head?_reverse] at hc
    exact stripPy_getLast? l c hc
  show (((stripPy l).dropWhile isSpacePy).reverse.dropWhile isSpacePy).reverse = stripPy l
  rw [h1, h2, List.reverse_reverse]

theorem mem_stripPy {c : Char} {l : List Char} (h : c ∈ stripPy l) : c ∈ l :=
  (stripPy_within l).subset h

/-- The composite `strip ∘ collapse` is a fixed point of both `collapseWs` and
`stripPy`: the core of the idempotence arguments. -/
theorem collapseWs_stripPy_collapseWs (l : List Char) :
    collapseWs (stripPy (collapseWs l)) = stripPy (collapseWs l) := by
  have hch : List.Chain' NoWsPair (collapseWs l) := (chain'_collapseWsAux l).1
  have hch' : List.Chain' NoWsPair (stripPy (collapseWs l)) :=
    hch.infix (stripPy_within _)
  have hsp : ∀ c ∈ stripPy (collapseWs l), isSpacePy c → c = ' ' := by
    intro c hc hspc
    exact spaces_collapseWsAux false l (mem_stripPy hc) hspc
  exact (collapseWsAux_eq_self _ hch' hsp).1

theorem removeTatweel_of_not_mem {l : List Char} (h : tatweel ∉ l) :
    removeTatweel l = l := by
  unfold removeTatweel
  rw [List.filter_eq_self]
  intro a ha
  simp only [decide_eq_true_eq]
  intro heq
  exact h (heq ▸ ha)

theorem not_tatweel_mem_normalized (l : List Char) :
    tatweel ∉ stripPy (collapseWs (removeTatweel l)) := by
  intro hmem
  have h1 : tatweel ∈ collapseWs (removeTatweel l) := mem_stripPy hmem
  rcases mem_collapseWsAux false _ h1 with h | h
  · exact absurd h (by decide)
  · unfold removeTatweel at h
    have := List.of_mem_filter h
    simp at this

/-- C10 helper: the normalized form of any string is a fixed point of the whole
normalization pipeline. -/
theorem normalize_core_idem (l : List Char) :
    stripPy (collapseWs (removeTatweel (stripPy (collapseWs (removeTatweel l))))) =
      stripPy (collapseWs (removeTatweel l)) := by
  rw [removeTatweel_of_not_mem (not_tatweel_mem_normalized l),
    collapseWs_stripPy_collapseWs, stripPy_idem]

/-- **C10.** `normalize_text` is idempotent (and total by construction):
`normalize_text (normalize_text t) = normalize_text t` for every string `t`. -/
theorem normalize_text_idem (s : String) :
    normalize_text (normalize_text s) = normalize_text s := by
  unfold normalize_text
  by_cases h : s.data = []
  · rw [if_pos h, if_pos rfl]
  · rw [if_neg h]
    by_cases h2 : stripPy (collapseWs (removeTatweel s.data)) = []
    · rw [if_pos (by simpa using h2), h2]
    · rw [if_neg (by simpa using h2)]
      exact congrArg String.mk (normalize_core_idem s.data)

theorem latinWs_ne_softHyphen {c : Char}
    (h : isLatinLetter c = true ∨ isSpacePy c = true) : c ≠ softHyphen := by
  rintro rfl
  rcases h with h | h <;> revert h <;> decide

theorem latinWs_ne_hyphen {c : Char}
    (h : isLatinLetter c = true ∨ isSpacePy c = true) : c ≠ '-' := by
  rintro rfl
  rcases h with h | h <;> revert h <;> decide

theorem latinWs_ne_slash {c : Char}
    (h : isLatinLetter c = true ∨ isSpacePy c = true) : c ≠ '/' := by
  rintro rfl
  rcases h with h | h <;> revert h <;> decide

theorem isSpacePy_cases {c : Char} (h : isSpacePy c = true) :
    c = ' ' ∨ c = '\t' ∨ c = '\n' ∨ c = '\r' ∨ c = '\x0b' ∨ c = '\x0c' := by
  simpa [isSpacePy, or_assoc] using h

theorem latinWs_not_digit {c : Char}
    (h : isLatinLetter c = true ∨ isSpacePy c = true) : isDigitPy c = false := by
  rcases h with h | h
  · simp only [isLatinLetter, charBetween, Bool.or_eq_true, Bool.and_eq_true,
      decide_eq_true_eq] at h
    rw [Bool.eq_false_iff]
    intro hcon
    simp only [isDigitPy, charBetween, Bool.or_eq_true, Bool.and_eq_true,
      decide_eq_true_eq] at hcon
    omega
  · rcases isSpacePy_cases h with rfl | rfl | rfl | rfl | rfl | rfl <;> decide

theorem latinWs_kept {c : Char}
    (h : isLatinLetter c = true ∨ isSpacePy c = true) : isKeptPy c = true := by
  rcases h with h | h
  · simp [isKeptPy, isWordPy, h]
  · simp [isKeptPy, h]

theorem latinWs_not_repPunct {c : Char}
    (h : isLatinLetter c = true ∨ isSpacePy c = true) : isRepPunct c = false := by
  rcases h with h | h
  · simp only [isLatinLetter, charBetween, Bool.or_eq_true, Bool.and_eq_true,
      decide_eq_true_eq] at h
    rw [Bool.eq_false_iff]
    intro hcon
    simp only [isRepPunct, Bool.or_eq_true, beq_iff_eq, or_assoc] at hcon
    rcases hcon with rfl | rfl | rfl | rfl <;> revert h <;> decide
  · rcases isSpacePy_cases h with rfl | rfl | rfl | rfl | rfl | rfl <;> decide

theorem latinWs_ne_dash {c : Char}
    (h : isLatinLetter c = true ∨ isSpacePy c = true) :
    c ≠ '–' ∧ c ≠ '—' ∧ c ≠ '…' := by
  refine ⟨?_, ?_, ?_⟩ <;> rintro rfl <;> rcases h with h | h <;> revert h <;> decide

theorem joinHyphFuel_id {l : List Char} (h : ∀ c ∈ l, c ≠ '-') :
    ∀ (f : Nat) (b : Bool), joinHyphFuel f b l = l := by
  induction l with
  | nil => intro f b; cases f <;> rfl
  | cons c rest ih =>
    intro f b
    cases f with
    | zero => rfl
    | succ f =>
      have hc : (c == '-') = false := by
        simp only [beq_eq_false_iff_ne, ne_eq]
        exact h c (List.mem_cons_self _ _)
      simp only [joinHyphFuel, hc, Bool.false_and, Bool.if_false_left,
        Bool.and_eq_true, Bool.not_eq_true]
      rw [if_neg (by simp)]
      rw [ih (fun d hd => h d (List.mem_cons_of_mem _ hd)) f (isHyphLetter c)]

theorem matchSlashGid_none {l : List Char} (h : ∀ c ∈ l, c ≠ '/') :
    matchSlashGid l = none := by
  unfold matchSlashGid
  rcases hd : l.dropWhile isSpacePy with _ | ⟨d, r⟩
  · rfl
  · have hdl : d ∈ l := by
      have : d ∈ l.dropWhile isSpacePy := by rw [hd]; exact List.mem_cons_self _ _
      exact (List.dropWhile_suffix _).subset this
    have : (d == '/') = false := by
      simp only [beq_eq_false_iff_ne, ne_eq]
      exact h d hdl
    simp [this]

theorem gidPathSubFuel_id {f : Nat} :
    ∀ {l : List Char}, (∀ c ∈ l, c ≠ '/') → gidPathSubFuel f l = l := by
  induction f with
  | zero => intro l _; rfl
  | succ f ih =>
    intro l h
    cases l with
    | nil => rfl
    | cons c rest =>
      simp only [gidPathSubFuel, matchSlashGid_none h]
      rw [ih (fun d hd => h d (List.mem_cons_of_mem _ hd))]

theorem matchGidCore_none {l : List Char} (h : ∀ c ∈ l, isDigitPy c = false) :
    matchGidCore l = none := by
  rcases l with _ | ⟨g, _ | ⟨i, _ | ⟨d, _ | ⟨x1, _ | ⟨x2, _ | ⟨x3, _ | ⟨x4, _ | ⟨x5, rest⟩⟩⟩⟩⟩⟩⟩⟩
  iterate 8 rfl
  have hx1 : isDigitPy x1 = false := h x1 (by simp)
  simp [matchGidCore, hx1]

theorem gidTokSubFuel_id {f : Nat} :
    ∀ {l : List Char}, (∀ c ∈ l, isDigitPy c = false) → gidTokSubFuel f l = l := by
  induction f with
  | zero => intro l _; rfl
  | succ f ih =>
    intro l h
    cases l with
    | nil => rfl
    | cons c rest =>
      simp only [gidTokSubFuel, matchGidCore_none h]
      rw [ih (fun d hd => h d (List.mem_cons_of_mem _ hd))]

theorem slashSubFuel_id {f : Nat} :
    ∀ {l : List Char}, (∀ c ∈ l, c ≠ '/') → slashSubFuel f l = l := by
  induction f with
  | zero => intro l _; rfl
  | succ f ih =>
    intro l h
    cases l with
    | nil => rfl
    | cons c rest =>
      have hrec := ih (fun d hd => h d (List.mem_cons_of_mem _ hd))
      rcases hd : (c :: rest).dropWhile isSpacePy with _ | ⟨d, r2⟩
      · simp only [slashSubFuel, hd]
        rw [hrec]
      · have hdl : d ∈ c :: rest := by
          have : d ∈ (c :: rest).dropWhile isSpacePy := by
            rw [hd]; exact List.mem_cons_self _ _
          exact (List.dropWhile_suffix _).subset this
        have hne : (d == '/') = false := by
          simp only [beq_eq_false_iff_ne, ne_eq]
          exact h d hdl
        simp only [slashSubFuel, hd, hne, Bool.false_eq_true, if_false]
        rw [hrec]

theorem gibSubFuel_id {f : Nat} :
    ∀ {l : List Char}, (∀ c ∈ l, isKeptPy c = true) → gibSubFuel f l = l := by
  induction f with
  | zero => intro l _; rfl
  | succ f ih =>
    intro l h
    cases l with
    | nil => rfl
    | cons c rest =>
      simp only [gibSubFuel, h c (List.mem_cons_self _ _), if_true]
      rw [ih (fun d hd => h d (List.mem_cons_of_mem _ hd))]

theorem dashEllipsisSub_id {l : List Char}
    (h : ∀ c ∈ l, c ≠ '–' ∧ c ≠ '—' ∧ c ≠ '…') : dashEllipsisSub l = l := by
  induction l with
  | nil => rfl
  | cons c rest ih =>
    obtain ⟨h1, h2, h3⟩ := h c (List.mem_cons_self _ _)
    simp only [dashEllipsisSub, if_neg h1, if_neg h2, if_neg h3, List.singleton_append]
    rw [ih (fun d hd => h d (List.mem_cons_of_mem _ hd))]

theorem punctSubFuel_id {f : Nat} :
    ∀ {l : List Char}, (∀ c ∈ l, isRepPunct c = false) → punctSubFuel f l = l := by
  induction f with
  | zero => intro l _; rfl
  | succ f ih =>
    intro l h
    cases l with
    | nil => rfl
    | cons c rest =>
      simp only [punctSubFuel, h c (List.mem_cons_self _ _), Bool.false_and,
        Bool.false_eq_true, if_false]
      rw [ih (fun d hd => h d (List.mem_cons_of_mem _ hd))]

/-- On a letters-and-whitespace string every stage before the final whitespace
normalization is the identity. -/
theorem clean_text_eq_normalizeWs {l : List Char} (h : LatinWs l) (hne : l ≠ []) :
    clean_text ⟨l⟩ = ⟨stripPy (collapseWs l)⟩ := by
  unfold clean_text
  rw [if_neg (by simpa using hne)]
  show String.mk (stripPy (collapseWs (punctSubFuel _ (dashEllipsisSub (gibSubFuel _
    (slashSubFuel _ (gidTokSubFuel _ (gidPathSub (joinHyph
      ((String.mk l).data.filter (fun c => c ≠ softHyphen))))))))))) = _
  have hdata : (String.mk l).data = l := rfl
  rw [hdata]
  have h1 : l.filter (fun c => c ≠ softHyphen) = l := by
    rw [List.filter_eq_self]
    intro a ha
    simpa using latinWs_ne_softHyphen (h a ha)
  rw [h1]
  have h2 : joinHyph l = l :=
    joinHyphFuel_id (fun c hc => latinWs_ne_hyphen (h c hc)) l.length false
  rw [h2]
  have h3 : gidPathSub l = l :=
    gidPathSubFuel_id (fun c hc => latinWs_ne_slash (h c hc))
  rw [h3]
  have h4 : gidTokSubFuel l.length l = l :=
    gidTokSubFuel_id (fun c hc => latinWs_not_digit (h c hc))
  rw [h4]
  have h5 : slashSubFuel l.length l = l :=
    slashSubFuel_id (fun c hc => latinWs_ne_slash (h c hc))
  rw [h5]
  have h6 : gibSubFuel l.length l = l :=
    gibSubFuel_id (fun c hc => latinWs_kept (h c hc))
  rw [h6]
  have h7 : dashEllipsisSub l = l :=
    dashEllipsisSub_id (fun c hc => latinWs_ne_dash (h c hc))
  rw [h7]
  have h8 : punctSubFuel l.length l = l :=
    punctSubFuel_id (fun c hc => latinWs_not_repPunct (h c hc))
  rw [h8]

theorem latinWs_stripPy_collapseWs {l : List Char} (h : LatinWs l) :
    LatinWs (stripPy (collapseWs l)) := by
  intro c hc
  rcases mem_collapseWsAux false l (mem_stripPy hc) with h' | h'
  · right; rw [h']; decide
  · exact h c h'

/-- **C2 (counterexample).** `clean_text` is not idempotent: on `"a-€b"` the
gibberish filter turns `€` into a space, exposing a `letter-hyphen-space-letter`
pattern that only a second pass joins. -/
theorem clean_text_not_idem :
    clean_text "a-€b" = "a- b" ∧ clean_text (clean_text "a-€b") = "ab" ∧
      clean_text (clean_text "a-€b") ≠ clean_text "a-€b" := by
  refine ⟨by decide, by decide, by decide⟩

/-- **C2 (amended).** On strings consisting only of ASCII letters and
whitespace the cleaning pipeline reduces to whitespace normalization and is
idempotent; full idempotence fails (see the counterexample). -/
theorem clean_text_idem_latinWs (s : String)
    (h : ∀ c ∈ s.data, isLatinLetter c = true ∨ isSpacePy c = true) :
    clean_text (clean_text s) = clean_text s := by
  by_cases hnil : s.data = []
  · have hs : s = "" := by
      cases s with
      | mk d => cases hnil; rfl
    rw [hs]
    decide
  · have hfirst : clean_text s = ⟨stripPy (collapseWs s.data)⟩ := by
      have := clean_text_eq_normalizeWs (l := s.data) h hnil
      cases s with
      | mk d => exact this
    rw [hfirst]
    set y := stripPy (collapseWs s.data) with hy
    have hyws : LatinWs y := latinWs_stripPy_collapseWs h
    by_cases hynil : y = []
    · rw [hynil]
      decide
    · have hsecond : clean_text ⟨y⟩ = ⟨stripPy (collapseWs y)⟩ :=
        clean_text_eq_normalizeWs hyws hynil
      rw [hsecond, hy, collapseWs_stripPy_collapseWs, stripPy_idem]

/-- Witness for the amended C2 at a concrete input. -/
theorem clean_text_idem_latinWs_witness :
    (∀ c ∈ ("ab  cd" : String).data, isLatinLetter c = true ∨ isSpacePy c = true) ∧
      clean_text (clean_text "ab  cd") = clean_text "ab  cd" :=
  ⟨by decide, clean_text_idem_latinWs "ab  cd" (by decide)⟩

/-! ### Stable descending sort: permutation, sortedness, stability -/

theorem insertDescBy_perm {α : Type} (val : α → ℚ) (x : α) :
    ∀ (l : List α), List.Perm (insertDescBy val x l) (x :: l) := by
  intro l
  induction l with
  | nil => rfl
  | cons y r ih =>
    by_cases h : val y ≤ val x
    · simp [insertDescBy, h]
    · simp only [insertDescBy, if_neg h]
      exact (ih.cons y).trans (List.Perm.swap x y r)

theorem sortDescBy_perm {α : Type} (val : α → ℚ) :
    ∀ (l : List α), List.Perm (sortDescBy val l) l := by
  intro l
  induction l with
  | nil => rfl
  | cons x r ih =>
    exact (insertDescBy_perm val x (sortDescBy val r)).trans (ih.cons x)

theorem mem_insertDescBy {α : Type} {val : α → ℚ} {x z : α} {l : List α}
    (h : z ∈ insertDescBy val x l) : z = x ∨ z ∈ l :=
  List.mem_cons.mp ((insertDescBy_perm val x l).subset h)

theorem pairwise_insertDescBy {α : Type} {val : α → ℚ} {x : α} {l : List α}
    (h : l.Pairwise (fun a b => val b ≤ val a)) :
    (insertDescBy val x l).Pairwise (fun a b => val b ≤ val a) := by
  induction l with
  | nil => simp [insertDescBy]
  | cons y r ih =>
    rcases List.pairwise_cons.mp h with ⟨hy, hr⟩
    by_cases hle : val y ≤ val x
    · simp only [insertDescBy, if_pos hle]
      refine List.pairwise_cons.mpr ⟨?_, h⟩
      intro z hz
      rcases List.mem_cons.mp hz with rfl | hz'
      · exact hle
      · exact (hy z hz').trans hle
    · simp only [insertDescBy, if_neg hle]
      refine List.pairwise_cons.mpr ⟨?_, ih hr⟩
      intro z hz
      rcases mem_insertDescBy hz with rfl | hz'
      · exact le_of_lt (lt_of_not_le hle)
      · exact hy z hz'

theorem pairwise_sortDescBy {α : Type} (val : α → ℚ) :
    ∀ (l : List α), (sortDescBy val l).Pairwise (fun a b => val b ≤ val a) := by
  intro l
  induction l with
  | nil => simp [sortDescBy]
  | cons x r ih => exact pairwise_insertDescBy ih

/-- Stability: for every score value, the sorted list restricted to that value
is the original list restricted to that value (equal-valued elements keep
their relative order). -/
theorem filter_insertDescBy {α : Type} (val : α → ℚ) (q : ℚ) (x : α) :
    ∀ (l : List α),
      (insertDescBy val x l).filter (fun a => val a = q) =
        if val x = q then x :: l.filter (fun a => val a = q)
        else l.filter (fun a => val a = q) := by
  intro l
  induction l with
  | nil =>
    by_cases hx : val x = q <;> simp [insertDescBy, hx]
  | cons y r ih =>
    by_cases hle : val y ≤ val x
    · by_cases hx : val x = q
      · simp only [insertDescBy, if_pos hle, if_pos hx]
        rw [List.filter_cons, if_pos (by simpa using hx)]
      · simp only [insertDescBy, if_pos hle, if_neg hx]
        rw [List.filter_cons, if_neg (by simpa using hx)]
    · have hlt : val x < val y := lt_of_not_le hle
      by_cases hy : val y = q
      · have hx : ¬(val x = q) := by
          intro hx'
          rw [hx', ← hy] at hlt
          exact lt_irrefl _ hlt
        simp only [insertDescBy, if_neg hle, if_neg hx]
        rw [List.filter_cons, if_pos (by simpa using hy), ih, if_neg hx,
          List.filter_cons, if_pos (by simpa using hy)]
      · simp only [insertDescBy, if_neg hle]
        rw [List.filter_cons, if_neg (by simpa using hy), ih]
        by_cases hx : val x = q
        · rw [if_pos hx, if_pos hx, List.filter_cons, if_neg (by simpa using hy)]
        · rw [if_neg hx, if_neg hx, List.filter_cons, if_neg (by simpa using hy)]

theorem filter_sortDescBy {α : Type} (val : α → ℚ) (q : ℚ) :
    ∀ (l : List α),
      (sortDescBy val l).filter (fun a => val a = q) = l.filter (fun a => val a = q) := by
  intro l
  induction l with
  | nil => rfl
  | cons x r ih =>
    show (insertDescBy val x (sortDescBy val r)).filter (fun a => val a = q) = _
    rw [filter_insertDescBy, ih]
    by_cases hx : val x = q
    · rw [if_pos hx, List.filter_cons, if_pos (by simpa using hx)]
    · rw [if_neg hx, List.filter_cons, if_neg (by simpa using hx)]

theorem foldl_rrfStepOne_eq (kc : ℚ) :
    ∀ (occ : List (Cand × ℕ)) (sc : List (String × ℚ)) (mt : List (String × Cand)),
      occ.foldl (rrfStepOne kc) (sc, mt) = (scoresFold kc sc occ, metaFold mt occ) := by
  intro occ
  induction occ with
  | nil => intro sc mt; rfl
  | cons p rest ih =>
    intro sc mt
    show rest.foldl (rrfStepOne kc) (rrfStepOne kc (sc, mt) p) = _
    rw [ih]
    rfl

theorem fuse_fold_flat (kc : ℚ) :
    ∀ (lists : List (List Cand)) (st : List (String × ℚ) × List (String × Cand)),
      lists.foldl (fun st results => (enumRank results).foldl (rrfStepOne kc) st) st =
        (allOcc lists).foldl (rrfStepOne kc) st := by
  intro lists
  induction lists with
  | nil => intro st; rfl
  | cons l ls ih =>
    intro st
    show ls.foldl _ ((enumRank l).foldl (rrfStepOne kc) st) = _
    rw [ih]
    have : allOcc (l :: ls) = enumRank l ++ allOcc ls := by
      simp [allOcc]
    rw [this, List.foldl_append]

theorem alookup_updAdd_self (k : String) (v : ℚ) :
    ∀ (sc : List (String × ℚ)),
      alookup k (updAdd k v sc) = some ((alookup k sc).getD 0 + v) := by
  intro sc
  induction sc with
  | nil => simp [updAdd, alookup]
  | cons e r ih =>
    obtain ⟨k', v'⟩ := e
    by_cases h : k' = k
    · subst h
      simp [updAdd, alookup]
    · simp only [updAdd, if_neg h, alookup, ih]

theorem alookup_updAdd_ne {k k' : String} (h : k' ≠ k) (v : ℚ) :
    ∀ (sc : List (String × ℚ)), alookup k' (updAdd k v sc) = alookup k' sc := by
  intro sc
  induction sc with
  | nil => simp [updAdd, alookup, Ne.symm h]
  | cons e r ih =>
    obtain ⟨k'', v''⟩ := e
    by_cases h2 : k'' = k
    · subst h2
      simp [updAdd, alookup, Ne.symm h]
    · simp only [updAdd, if_neg h2, alookup, ih]

theorem fst_updAdd (k : String) (v : ℚ) :
    ∀ (sc : List (String × ℚ)),
      (updAdd k v sc).map Prod.fst = seenIns (sc.map Prod.fst) k := by
  intro sc
  induction sc with
  | nil => simp [updAdd, seenIns]
  | cons e r ih =>
    obtain ⟨k', v'⟩ := e
    by_cases h : k' = k
    · subst h
      simp [updAdd, seenIns]
    · simp only [updAdd, if_neg h, List.map_cons, ih, seenIns]
      by_cases hm : k ∈ r.map Prod.fst
      · rw [if_pos hm, if_pos (by simp [hm])]
      · rw [if_neg hm,
          if_neg (by simp [hm, Ne.symm h]), List.cons_append]

theorem alookup_metaIns_self (k : String) (c : Cand) :
    ∀ (mt : List (String × Cand)),
      alookup k (metaIns k c mt) = some ((alookup k mt).getD c) := by
  intro mt
  induction mt with
  | nil => simp [metaIns, alookup]
  | cons e r ih =>
    obtain ⟨k', c'⟩ := e
    by_cases h : k' = k
    · subst h
      simp [metaIns, alookup]
    · simp only [metaIns, if_neg h, alookup, if_neg h, ih]

theorem alookup_metaIns_ne {k k' : String} (h : k' ≠ k) (c : Cand) :
    ∀ (mt : List (String × Cand)), alookup k' (metaIns k c mt) = alookup k' mt := by
  intro mt
  induction mt with
  | nil => simp [metaIns, alookup, Ne.symm h]
  | cons e r ih =>
    obtain ⟨k'', c''⟩ := e
    by_cases h2 : k'' = k
    · subst h2
      simp [metaIns, alookup, Ne.symm h]
    · simp only [metaIns, if_neg h2, alookup, ih]

theorem fst_metaIns (k : String) (c : Cand) :
    ∀ (mt : List (String × Cand)),
      (metaIns k c mt).map Prod.fst = seenIns (mt.map Prod.fst) k := by
  intro mt
  induction mt with
  | nil => simp [metaIns, seenIns]
  | cons e r ih =>
    obtain ⟨k', c'⟩ := e
    by_cases h : k' = k
    · subst h
      simp [metaIns, seenIns]
    · simp only [metaIns, if_neg h, List.map_cons, ih, seenIns]
      by_cases hm : k ∈ r.map Prod.fst
      · rw [if_pos hm, if_pos (by simp [hm])]
      · rw [if_neg hm,
          if_neg (by simp [hm, Ne.symm h]), List.cons_append]

theorem mem_seenIns {k a : String} {acc : List String} :
    k ∈ seenIns acc a ↔ k ∈ acc ∨ k = a := by
  unfold seenIns
  by_cases h : a ∈ acc
  · rw [if_pos h]
    constructor
    · exact Or.inl
    · rintro (hk | rfl)
      · exact hk
      · exact h
  · rw [if_neg h]
    simp

theorem mem_foldl_seenIns (k : String) :
    ∀ (ks acc : List String), k ∈ ks.foldl seenIns acc ↔ k ∈ acc ∨ k ∈ ks := by
  intro ks
  induction ks with
  | nil => simp
  | cons a r ih =>
    intro acc
    show k ∈ r.foldl seenIns (seenIns acc a) ↔ _
    rw [ih, mem_seenIns]
    simp [or_assoc, or_comm, or_left_comm]

theorem nodup_seenIns {acc : List String} (h : acc.Nodup) (a : String) :
    (seenIns acc a).Nodup := by
  unfold seenIns
  by_cases hm : a ∈ acc
  · rwa [if_pos hm]
  · rw [if_neg hm]
    simp [List.nodup_append, h, hm]

theorem nodup_foldl_seenIns :
    ∀ (ks acc : List String), acc.Nodup → (ks.foldl seenIns acc).Nodup := by
  intro ks
  induction ks with
  | nil => intro acc h; exact h
  | cons a r ih =>
    intro acc h
    exact ih (seenIns acc a) (nodup_seenIns h a)

theorem alookup_eq_none {β : Type} (k : String) :
    ∀ (l : List (String × β)), alookup k l = none ↔ k ∉ l.map Prod.fst := by
  intro l
  induction l with
  | nil => simp [alookup]
  | cons e r ih =>
    obtain ⟨k', v⟩ := e
    by_cases h : k' = k
    · subst h
      simp [alookup]
    · simp [alookup, if_neg h, ih, Ne.symm h]

theorem alookup_isSome_of_mem {β : Type} {k : String} {l : List (String × β)}
    (h : k ∈ l.map Prod.fst) : ∃ v, alookup k l = some v := by
  rcases hv : alookup k l with _ | v
  · exact absurd ((alookup_eq_none k l).mp hv) (by simpa using h)
  · exact ⟨v, rfl⟩

theorem lookup0_scoresFold (kc : ℚ) (key : String) :
    ∀ (occ : List (Cand × ℕ)) (sc : List (String × ℚ)),
      (alookup key (scoresFold kc sc occ)).getD 0 =
        (alookup key sc).getD 0 + specContrib kc key occ := by
  intro occ
  induction occ with
  | nil => intro sc; simp [scoresFold, specContrib]
  | cons p rest ih =>
    intro sc
    show (alookup key (scoresFold kc (updAdd (candKey p.1) (1 / (kc + (p.2 : ℚ))) sc)
      rest)).getD 0 = _
    rw [ih]
    by_cases hk : candKey p.1 = key
    · rw [hk, alookup_updAdd_self]
      have hcontrib : specContrib kc key (p :: rest) =
          1 / (kc + (p.2 : ℚ)) + specContrib kc key rest := by
        unfold specContrib
        rw [List.filter_cons, if_pos (by simpa using hk)]
        simp
      rw [hcontrib]
      simp [add_assoc]
    · rw [alookup_updAdd_ne (fun he => hk he.symm)]
      have hcontrib : specContrib kc key (p :: rest) = specContrib kc key rest := by
        unfold specContrib
        rw [List.filter_cons, if_neg (by simpa using hk)]
      rw [hcontrib]

theorem fst_scoresFold (kc : ℚ) :
    ∀ (occ : List (Cand × ℕ)) (sc : List (String × ℚ)),
      (scoresFold kc sc occ).map Prod.fst =
        (occ.map (fun p => candKey p.1)).foldl seenIns (sc.map Prod.fst) := by
  intro occ
  induction occ with
  | nil => intro sc; rfl
  | cons p rest ih =>
    intro sc
    show (scoresFold kc (updAdd (candKey p.1) (1 / (kc + (p.2 : ℚ))) sc) rest).map
      Prod.fst = _
    rw [ih, fst_updAdd]
    rfl

theorem fst_metaFold :
    ∀ (occ : List (Cand × ℕ)) (mt : List (String × Cand)),
      (metaFold mt occ).map Prod.fst =
        (occ.map (fun p => candKey p.1)).foldl seenIns (mt.map Prod.fst) := by
  intro occ
  induction occ with
  | nil => intro mt; rfl
  | cons p rest ih =>
    intro mt
    show (metaFold (metaIns (candKey p.1) p.1 mt) rest).map Prod.fst = _
    rw [ih, fst_metaIns]
    rfl

theorem alookup_metaFold_of_some {key : String} {c : Cand} :
    ∀ (occ : List (Cand × ℕ)) (mt : List (String × Cand)),
      alookup key mt = some c → alookup key (metaFold mt occ) = some c := by
  intro occ
  induction occ with
  | nil => intro mt h; exact h
  | cons p rest ih =>
    intro mt h
    show alookup key (metaFold (metaIns (candKey p.1) p.1 mt) rest) = some c
    apply ih
    by_cases hk : candKey p.1 = key
    · subst hk
      rw [alookup_metaIns_self, h]
      rfl
    · rw [alookup_metaIns_ne (fun he => hk he.symm), h]

theorem alookup_metaFold_of_none {key : String} :
    ∀ (occ : List (Cand × ℕ)) (mt : List (String × Cand)),
      alookup key mt = none →
        alookup key (metaFold mt occ) =
          (occ.find? (fun p => candKey p.1 = key)).map Prod.fst := by
  intro occ
  induction occ with
  | nil => intro mt h; exact h
  | cons p rest ih =>
    intro mt h
    show alookup key (metaFold (metaIns (candKey p.1) p.1 mt) rest) = _
    by_cases hk : candKey p.1 = key
    · have hsome : alookup key (metaIns (candKey p.1) p.1 mt) = some p.1 := by
        subst hk
        rw [alookup_metaIns_self, h]
        rfl
      rw [alookup_metaFold_of_some rest _ hsome,
        List.find?_cons_of_pos _ (by simpa using hk)]
      rfl
    · have hnone : alookup key (metaIns (candKey p.1) p.1 mt) = none := by
        rw [alookup_metaIns_ne (fun he => hk he.symm), h]
      rw [ih _ hnone, List.find?_cons_of_neg _ (by simpa using hk)]

/-- Association lists with the same (duplicate-free) key sequence and the same
lookups are equal. -/
theorem alist_ext {β : Type} :
    ∀ (l₁ l₂ : List (String × β)),
      l₁.map Prod.fst = l₂.map Prod.fst → (l₁.map Prod.fst).Nodup →
      (∀ k, alookup k l₁ = alookup k l₂) → l₁ = l₂ := by
  intro l₁
  induction l₁ with
  | nil =>
    intro l₂ hkeys _ _
    exact (List.map_eq_nil_iff.mp hkeys.symm).symm
  | cons e r ih =>
    intro l₂ hkeys hnd hlook
    obtain ⟨k, v⟩ := e
    cases l₂ with
    | nil => simp at hkeys
    | cons e₂ r₂ =>
      obtain ⟨k₂, v₂⟩ := e₂
      simp only [List.map_cons, List.cons.injEq] at hkeys
      obtain ⟨hk, htl⟩ := hkeys
      subst hk
      have hv : v = v₂ := by
        have := hlook k
        simp only [alookup, if_pos rfl] at this
        exact Option.some.inj this
      subst hv
      have hknotr : k ∉ r.map Prod.fst := (List.nodup_cons.mp hnd).1
      have hknotr₂ : k ∉ r₂.map Prod.fst := htl ▸ hknotr
      have : r = r₂ := by
        apply ih r₂ htl (List.nodup_cons.mp hnd).2
        intro k'
        by_cases hkk : k' = k
        · subst hkk
          rw [(alookup_eq_none k' r).mpr hknotr, (alookup_eq_none k' r₂).mpr hknotr₂]
        · have := hlook k'
          simpa only [alookup, if_neg (fun he : k = k' => hkk he.symm)] using this
      rw [this]

theorem alookup_map_keyfn {β : Type} (f : String → β) (k : String) :
    ∀ (ks : List String),
      alookup k (ks.map (fun k' => (k', f k'))) =
        if k ∈ ks then some (f k) else none := by
  intro ks
  induction ks with
  | nil => simp [alookup]
  | cons a r ih =>
    by_cases h : a = k
    · subst h
      simp [alookup, ih]
    · simp only [List.map_cons, alookup, if_neg h, ih]
      by_cases hm : k ∈ r
      · rw [if_pos hm, if_pos (by simp [hm])]
      · rw [if_neg hm, if_neg (by simp [hm, Ne.symm h])]

/-- The accumulated scores dict, as a function of the occurrence stream: keys
in first-seen order, each mapped to its reciprocal-rank sum. -/
theorem scoresFold_eq_map (kc : ℚ) (occ : List (Cand × ℕ)) :
    scoresFold kc [] occ =
      ((occ.map (fun p => candKey p.1)).foldl seenIns []).map
        (fun k => (k, specContrib kc k occ)) := by
  set fs := (occ.map (fun p => candKey p.1)).foldl seenIns [] with hfs
  have hkeys : (scoresFold kc [] occ).map Prod.fst = fs := by
    rw [fst_scoresFold]
    rfl
  apply alist_ext
  · rw [hkeys, List.map_map]
    exact (List.map_id fs).symm
  · rw [hkeys, hfs]
    exact nodup_foldl_seenIns _ [] (List.nodup_nil)
  · intro k
    rw [alookup_map_keyfn]
    by_cases hm : k ∈ fs
    · rw [if_pos hm]
      have hmem : k ∈ (scoresFold kc [] occ).map Prod.fst := by rw [hkeys]; exact hm
      obtain ⟨v, hv⟩ := alookup_isSome_of_mem hmem
      rw [hv]
      have := lookup0_scoresFold kc k occ []
      rw [hv] at this
      simp only [alookup, Option.getD_none, Option.getD_some, zero_add] at this
      rw [this]
    · rw [if_neg hm]
      apply (alookup_eq_none k _).mpr
      rw [hkeys]
      exact hm

theorem rrf_fuse_eq (kc : ℚ) (lists : List (List Cand)) :
    _rrf_fuse lists kc =
      (sortDescBy Prod.snd (fuseScores kc lists)).filterMap
        (fun p => (alookup p.1 (fuseMeta lists)).map (fun c => mkF c p.2)) := by
  unfold _rrf_fuse
  rw [fuse_fold_flat, foldl_rrfStepOne_eq]
  rfl

theorem fst_fuseScores (kc : ℚ) (lists : List (List Cand)) :
    (fuseScores kc lists).map Prod.fst = firstSeenKeys lists := by
  unfold fuseScores firstSeenKeys
  rw [fst_scoresFold]
  rfl

theorem fuseScores_eq_map (kc : ℚ) (lists : List (List Cand)) :
    fuseScores kc lists =
      (firstSeenKeys lists).map (fun k => (k, specScore kc k lists)) := by
  unfold fuseScores specScore firstSeenKeys
  exact scoresFold_eq_map kc (allOcc lists)

theorem mem_firstSeenKeys {key : String} {lists : List (List Cand)} :
    key ∈ firstSeenKeys lists ↔ key ∈ (allOcc lists).map (fun p => candKey p.1) := by
  unfold firstSeenKeys
  rw [mem_foldl_seenIns]
  simp

theorem nodup_firstSeenKeys (lists : List (List Cand)) :
    (firstSeenKeys lists).Nodup :=
  nodup_foldl_seenIns _ [] List.nodup_nil

theorem fuseMeta_lookup {key : String} {lists : List (List Cand)}
    (hk : key ∈ (allOcc lists).map (fun p => candKey p.1)) :
    ∃ c : Cand, alookup key (fuseMeta lists) =
        some c ∧ candKey c = key ∧
        ((allOcc lists).find? (fun p => candKey p.1 = key)).map Prod.fst = some c := by
  have hfind : alookup key (metaFold [] (allOcc lists)) =
      ((allOcc lists).find? (fun p => candKey p.1 = key)).map Prod.fst :=
    alookup_metaFold_of_none (allOcc lists) [] rfl
  obtain ⟨p, hp, hpk⟩ := List.mem_map.mp hk
  have hsome : ((allOcc lists).find? (fun q => candKey q.1 = key)).isSome := by
    rw [List.find?_isSome]
    exact ⟨p, hp, by simpa using hpk⟩
  obtain ⟨q, hq⟩ := Option.isSome_iff_exists.mp hsome
  refine ⟨q.1, ?_, ?_, ?_⟩
  · rw [fuseMeta, hfind, hq]
    rfl
  · have := List.find?_some hq
    simpa using this
  · rw [hq]
    rfl

theorem fKey_mkF (c : Cand) (v : ℚ) : fKey (mkF c v) = candKey c := rfl

/-- Applied to an ordered score list all of whose keys resolve in the metadata
dict to a candidate carrying that key, attaching metadata is invertible. -/
theorem filterMap_meta_pairs (mt : List (String × Cand)) :
    ∀ (ordered : List (String × ℚ)),
      (∀ p ∈ ordered, ∃ c : Cand, alookup p.1 mt = some c ∧ candKey c = p.1) →
      (ordered.filterMap (fun p => (alookup p.1 mt).map (fun c => mkF c p.2))).map
        (fun fc => (fKey fc, fc.rrf)) = ordered := by
  intro ordered
  induction ordered with
  | nil => intro _; rfl
  | cons p r ih =>
    intro h
    obtain ⟨c, hc, hck⟩ := h p (List.mem_cons_self _ _)
    rw [List.filterMap_cons, hc]
    show ((mkF c p.2) :: r.filterMap _).map _ = _
    rw [List.map_cons, ih (fun q hq => h q (List.mem_cons_of_mem _ hq))]
    show (fKey (mkF c p.2), p.2) :: r = p :: r
    rw [fKey_mkF, hck]

theorem fuse_bridge (kc : ℚ) (lists : List (List Cand)) :
    (_rrf_fuse lists kc).map (fun fc => (fKey fc, fc.rrf)) =
      sortDescBy Prod.snd (fuseScores kc lists) := by
  rw [rrf_fuse_eq]
  apply filterMap_meta_pairs
  intro p hp
  have hmem : p ∈ fuseScores kc lists := (sortDescBy_perm Prod.snd _).subset hp
  have hkey : p.1 ∈ (fuseScores kc lists).map Prod.fst :=
    List.mem_map.mpr ⟨p, hmem, rfl⟩
  rw [fst_fuseScores] at hkey
  obtain ⟨c, hc, hck, _⟩ := fuseMeta_lookup (mem_firstSeenKeys.mp hkey)
  exact ⟨c, hc, hck⟩

theorem filter_eq_singleton_of_nodup :
    ∀ {l : List String}, l.Nodup → ∀ {a : String}, a ∈ l →
      l.filter (fun k => k = a) = [a] := by
  intro l
  induction l with
  | nil => intro _ a ha; simp at ha
  | cons b r ih =>
    intro hnd a ha
    rcases List.mem_cons.mp ha with rfl | har
    · rw [List.filter_cons, if_pos (by simp)]
      have : r.filter (fun k => k = a) = [] := by
        rw [List.filter_eq_nil_iff]
        intro k hk
        simp only [decide_eq_true_eq]
        rintro rfl
        exact (List.nodup_cons.mp hnd).1 hk
      rw [this]
    · have hba : ¬(b = a) := by
        rintro rfl
        exact (List.nodup_cons.mp hnd).1 har
      rw [List.filter_cons, if_neg (by simpa using hba)]
      exact ih (List.nodup_cons.mp hnd).2 har

/-- **C1.** Reciprocal Rank Fusion key correctness: every key occurring in the
inputs appears exactly once in the fused output; its `rrf` equals the sum over
all its occurrences of `1/(60 + rank)` with ranks 1-indexed per list; the
output is sorted descending by `rrf`, ties broken by first-seen order across
the input lists. -/
theorem rrf_fuse_key_correct (lists : List (List Cand)) (key : String)
    (hk : key ∈ (allOcc lists).map (fun p => candKey p.1)) :
    ((_rrf_fuse lists 60).filter (fun fc => fKey fc = key)).length = 1 ∧
    (∀ fc ∈ _rrf_fuse lists 60, fKey fc = key → fc.rrf = specScore 60 key lists) ∧
    ((_rrf_fuse lists 60).Pairwise (fun a b => b.rrf ≤ a.rrf)) ∧
    (∀ q : ℚ, ((_rrf_fuse lists 60).filter (fun fc => fc.rrf = q)).map fKey =
      (firstSeenKeys lists).filter (fun k => specScore 60 k lists = q)) := by
  have hbridge := fuse_bridge 60 lists
  have hmapform := fuseScores_eq_map 60 lists
  have hfs_nodup := nodup_firstSeenKeys lists
  have hkfs : key ∈ firstSeenKeys lists := mem_firstSeenKeys.mpr hk
  have hscfilter : (fuseScores 60 lists).filter (fun pr => pr.1 = key) =
      [(key, specScore 60 key lists)] := by
    rw [hmapform, List.filter_map]
    show ((firstSeenKeys lists).filter (fun k => k = key)).map
      (fun k => (k, specScore 60 k lists)) = _
    rw [filter_eq_singleton_of_nodup hfs_nodup hkfs]
    rfl
  have hsortfilter : (sortDescBy Prod.snd (fuseScores 60 lists)).filter
      (fun pr => pr.1 = key) = [(key, specScore 60 key lists)] := by
    have hperm := (sortDescBy_perm Prod.snd (fuseScores 60 lists)).filter
      (fun pr => pr.1 = key)
    rw [hscfilter] at hperm
    exact hperm.eq_singleton
  refine ⟨?_, ?_, ?_, ?_⟩
  · have hf : ((_rrf_fuse lists 60).filter (fun fc => fKey fc = key)).map
        (fun fc => (fKey fc, fc.rrf)) =
        (sortDescBy Prod.snd (fuseScores 60 lists)).filter (fun pr => pr.1 = key) := by
      rw [← hbridge, List.filter_map]
      rfl
    have := congrArg List.length hf
    rw [List.length_map, hsortfilter] at this
    exact this
  · intro fc hm hkey
    have hmem : (fKey fc, fc.rrf) ∈ (_rrf_fuse lists 60).map
        (fun fc => (fKey fc, fc.rrf)) := List.mem_map.mpr ⟨fc, hm, rfl⟩
    rw [hbridge] at hmem
    have hmem2 : (fKey fc, fc.rrf) ∈ fuseScores 60 lists :=
      (sortDescBy_perm Prod.snd _).subset hmem
    rw [hmapform] at hmem2
    obtain ⟨k, _, hkel⟩ := List.mem_map.mp hmem2
    have hk1 : k = fKey fc := congrArg Prod.fst hkel
    have hk2 : specScore 60 k lists = fc.rrf := congrArg Prod.snd hkel
    rw [hk1, hkey] at hk2
    exact hk2.symm
  · have hp := pairwise_sortDescBy Prod.snd (fuseScores 60 lists)
    rw [← hbridge] at hp
    exact (List.pairwise_map.mp hp).imp (fun h => h)
  · intro q
    have h4a : ((_rrf_fuse lists 60).filter (fun fc => fc.rrf = q)).map
        (fun fc => (fKey fc, fc.rrf)) =
        (sortDescBy Prod.snd (fuseScores 60 lists)).filter (fun pr => pr.2 = q) := by
      rw [← hbridge, List.filter_map]
      rfl
    rw [filter_sortDescBy Prod.snd q, hmapform, List.filter_map] at h4a
    have h4b := congrArg (List.map Prod.fst) h4a
    rw [List.map_map, List.map_map] at h4b
    rw [show (Prod.fst ∘ fun k => (k, specScore 60 k lists)) = id from rfl] at h4b
    rw [List.map_id] at h4b
    exact h4b

/-- Witness for C1: the spec scenario `dense [(idx,1,0.9)]` with
`lexical [(idx,1,5.0)]` fuses to exactly one candidate with key `idx:1` and
`rrf = 1/(60+1) + 1/(60+1)`. -/
theorem rrf_fuse_key_correct_witness :
    ("idx:1" ∈ (allOcc [[Cand.mk "idx" "1" "d" (9/10)],
        [Cand.mk "idx" "1" "l" 5]]).map (fun p => candKey p.1)) ∧
    (((_rrf_fuse [[Cand.mk "idx" "1" "d" (9/10)], [Cand.mk "idx" "1" "l" 5]]
        60).filter (fun fc => fKey fc = "idx:1")).length = 1 ∧
      (∀ fc ∈ _rrf_fuse [[Cand.mk "idx" "1" "d" (9/10)], [Cand.mk "idx" "1" "l" 5]] 60,
        fKey fc = "idx:1" →
          fc.rrf = specScore 60 "idx:1" [[Cand.mk "idx" "1" "d" (9/10)],
            [Cand.mk "idx" "1" "l" 5]]) ∧
      ((_rrf_fuse [[Cand.mk "idx" "1" "d" (9/10)],
          [Cand.mk "idx" "1" "l" 5]] 60).Pairwise (fun a b => b.rrf ≤ a.rrf)) ∧
      (∀ q : ℚ, ((_rrf_fuse [[Cand.mk "idx" "1" "d" (9/10)],
          [Cand.mk "idx" "1" "l" 5]] 60).filter (fun fc => fc.rrf = q)).map fKey =
        (firstSeenKeys [[Cand.mk "idx" "1" "d" (9/10)],
          [Cand.mk "idx" "1" "l" 5]]).filter
          (fun k => specScore 60 k [[Cand.mk "idx" "1" "d" (9/10)],
            [Cand.mk "idx" "1" "l" 5]] = q))) ∧
    _rrf_fuse [[Cand.mk "idx" "1" "d" (9/10)], [Cand.mk "idx" "1" "l" 5]] 60 =
      [FCand.mk "idx" "1" "d" (9/10) (1/(60+1) + 1/(60+1))] :=
  ⟨by decide, rrf_fuse_key_correct _ _ (by decide), by
    norm_num [_rrf_fuse, enumRank, rrfStepOne, updAdd, metaIns, alookup,
      sortDescBy, insertDescBy, mkF, candKey, List.enum, List.enumFrom,
      List.filterMap_cons, List.filterMap_nil]⟩

theorem fst_bestUpd (h : Hit) :
    ∀ (b : List (String × Hit)),
      (bestUpd h b).map Prod.fst = seenIns (b.map Prod.fst) h.id := by
  intro b
  induction b with
  | nil => simp [bestUpd, seenIns]
  | cons e r ih =>
    obtain ⟨k, c⟩ := e
    by_cases hk : k = h.id
    · subst hk
      by_cases hs : c.score < h.score
      · simp [bestUpd, hs, seenIns]
      · simp [bestUpd, hs, seenIns]
    · simp only [bestUpd, if_neg hk, List.map_cons, ih, seenIns]
      by_cases hm : h.id ∈ r.map Prod.fst
      · rw [if_pos hm, if_pos (by simp [hm])]
      · rw [if_neg hm, if_neg (by simp [hm, Ne.symm hk]), List.cons_append]

theorem ids_bestUpd {h : Hit} :
    ∀ {b : List (String × Hit)}, (∀ p ∈ b, p.2.id = p.1) →
      ∀ p ∈ bestUpd h b, p.2.id = p.1 := by
  intro b
  induction b with
  | nil =>
    intro _ p hp
    simp only [bestUpd, List.mem_singleton] at hp
    subst hp
    rfl
  | cons e r ih =>
    intro hb p hp
    obtain ⟨k, c⟩ := e
    by_cases hk : k = h.id
    · subst hk
      by_cases hs : c.score < h.score
      · simp only [bestUpd, if_pos rfl, if_pos hs] at hp
        rcases List.mem_cons.mp hp with rfl | hp'
        · rfl
        · exact hb p (List.mem_cons_of_mem _ hp')
      · simp only [bestUpd, if_pos rfl, if_neg hs] at hp
        exact hb p hp
    · simp only [bestUpd, if_neg hk] at hp
      rcases List.mem_cons.mp hp with rfl | hp'
      · exact hb _ (List.mem_cons_self _ _)
      · exact ih (fun q hq => hb q (List.mem_cons_of_mem _ hq)) p hp'

/-- The value stored for `h.id` after an update: the incoming hit if the id is
new or strictly better, otherwise the incumbent. -/
theorem alookup_bestUpd_self (h : Hit) :
    ∀ (b : List (String × Hit)),
      alookup h.id (bestUpd h b) =
        some (match alookup h.id b with
          | none => h
          | some c => if c.score < h.score then h else c) := by
  intro b
  induction b with
  | nil => simp [bestUpd, alookup]
  | cons e r ih =>
    obtain ⟨k, c⟩ := e
    by_cases hk : k = h.id
    · subst hk
      by_cases hs : c.score < h.score
      · simp [bestUpd, hs, alookup]
      · simp [bestUpd, hs, alookup]
    · simp only [bestUpd, if_neg hk, alookup, if_neg hk, ih]

theorem alookup_bestUpd_ne {k : String} (h : Hit) (hne : k ≠ h.id) :
    ∀ (b : List (String × Hit)), alookup k (bestUpd h b) = alookup k b := by
  intro b
  induction b with
  | nil => simp [bestUpd, alookup, Ne.symm hne]
  | cons e r ih =>
    obtain ⟨k', c⟩ := e
    by_cases hk : k' = h.id
    · subst hk
      by_cases hs : c.score < h.score
      · simp [bestUpd, hs, alookup, Ne.symm hne]
      · simp [bestUpd, hs, alookup]
    · simp only [bestUpd, if_neg hk, alookup, ih]

theorem alookup_mem {β : Type} {k : String} {v : β} :
    ∀ {l : List (String × β)}, alookup k l = some v → (k, v) ∈ l := by
  intro l
  induction l with
  | nil => intro h; simp [alookup] at h
  | cons e r ih =>
    intro h
    obtain ⟨k', v'⟩ := e
    by_cases hk : k' = k
    · subst hk
      simp only [alookup, if_true, eq_self_iff_true, Option.some.injEq] at h
      subst h
      exact List.mem_cons_self _ _
    · simp only [alookup, if_neg hk] at h
      exact List.mem_cons_of_mem _ (ih h)

theorem mem_alookup {β : Type} {k : String} {v : β} :
    ∀ {l : List (String × β)}, (l.map Prod.fst).Nodup → (k, v) ∈ l →
      alookup k l = some v := by
  intro l
  induction l with
  | nil => intro _ h; simp at h
  | cons e r ih =>
    intro hnd hmem
    obtain ⟨k', v'⟩ := e
    rcases List.mem_cons.mp hmem with heq | hmem'
    · cases heq
      simp [alookup]
    · have hk : ¬(k' = k) := by
        rintro rfl
        exact (List.nodup_cons.mp hnd).1
          (List.mem_map.mpr ⟨(k', v), hmem', rfl⟩)
      simp only [alookup, if_neg hk]
      exact ih (List.nodup_cons.mp hnd).2 hmem'

/-- Fold invariant for `dedupe`: the entry stored for a key is drawn from the
processed hits (or the initial dict) and dominates every processed hit with
that id. -/
theorem bestFold_max :
    ∀ (hits : List Hit) (b : List (String × Hit)) (k : String) (h' : Hit),
      (∀ p ∈ b, p.2.id = p.1) →
      alookup k (bestFoldFrom b hits) = some h' →
      h'.id = k ∧ (h' ∈ hits ∨ alookup k b = some h') ∧
      (∀ g ∈ hits, g.id = k → g.score ≤ h'.score) ∧
      (∀ c, alookup k b = some c → c.score ≤ h'.score) := by
  intro hits
  induction hits with
  | nil =>
    intro b k h' hids hlook
    refine ⟨hids _ (alookup_mem hlook), Or.inr hlook, by simp, ?_⟩
    intro c hc
    have hb' : alookup k b = some h' := hlook
    rw [hb'] at hc
    cases hc
    exact le_refl _
  | cons h rest ih =>
    intro b k h' hids hlook
    have hids' : ∀ p ∈ bestUpd h b, p.2.id = p.1 := ids_bestUpd hids
    obtain ⟨hid, hmem, hmax, hboot⟩ := ih (bestUpd h b) k h' hids' hlook
    by_cases hk : k = h.id
    · subst hk
      have hself := alookup_bestUpd_self h b
      rcases hb : alookup h.id b with _ | c
      · -- id was not in the dict: stored value is `h`
        rw [hb] at hself
        have hselfn : alookup h.id (bestUpd h b) = some h := hself
        refine ⟨hid, ?_, ?_, ?_⟩
        · rcases hmem with hm | hm
          · exact Or.inl (List.mem_cons_of_mem _ hm)
          · rw [hselfn] at hm
            cases hm
            exact Or.inl (List.mem_cons_self _ _)
        · intro g hg hgid
          rcases List.mem_cons.mp hg with rfl | hg'
          · exact hboot _ hselfn
          · exact hmax g hg' hgid
        · intro c hc
          simp at hc
      · -- id present with incumbent `c`
        rw [hb] at hself
        have hselfs : alookup h.id (bestUpd h b) =
            some (if c.score < h.score then h else c) := hself
        by_cases hs : c.score < h.score
        · rw [if_pos hs] at hselfs
          refine ⟨hid, ?_, ?_, ?_⟩
          · rcases hmem with hm | hm
            · exact Or.inl (List.mem_cons_of_mem _ hm)
            · rw [hselfs] at hm
              cases hm
              exact Or.inl (List.mem_cons_self _ _)
          · intro g hg hgid
            rcases List.mem_cons.mp hg with rfl | hg'
            · exact hboot _ hselfs
            · exact hmax g hg' hgid
          · intro c' hc'
            cases hc'
            exact (le_of_lt hs).trans (hboot _ hselfs)
        · rw [if_neg hs] at hselfs
          refine ⟨hid, ?_, ?_, ?_⟩
          · rcases hmem with hm | hm
            · exact Or.inl (List.mem_cons_of_mem _ hm)
            · rw [hselfs] at hm
              cases hm
              exact Or.inr rfl
          · intro g hg hgid
            rcases List.mem_cons.mp hg with rfl | hg'
            · exact (le_of_not_lt hs).trans (hboot _ hselfs)
            · exact hmax g hg' hgid
          · intro c' hc'
            cases hc'
            exact hboot _ hselfs
    · refine ⟨hid, ?_, ?_, ?_⟩
      · rcases hmem with hm | hm
        · exact Or.inl (List.mem_cons_of_mem _ hm)
        · rw [alookup_bestUpd_ne h hk] at hm
          exact Or.inr hm
      · intro g hg hgid
        rcases List.mem_cons.mp hg with rfl | hg'
        · exact absurd hgid.symm hk
        · exact hmax g hg' hgid
      · intro c hc
        apply hboot
        rw [alookup_bestUpd_ne h hk]
        exact hc

theorem fst_bestFold :
    ∀ (hits : List Hit) (b : List (String × Hit)),
      (bestFoldFrom b hits).map Prod.fst =
        (hits.map (fun x => x.id)).foldl seenIns (b.map Prod.fst) := by
  intro hits
  induction hits with
  | nil => intro b; rfl
  | cons h rest ih =>
    intro b
    show (bestFoldFrom (bestUpd h b) rest).map Prod.fst = _
    rw [ih, fst_bestUpd]
    rfl

theorem ids_bestFold :
    ∀ (hits : List Hit) (b : List (String × Hit)),
      (∀ p ∈ b, p.2.id = p.1) → ∀ p ∈ bestFoldFrom b hits, p.2.id = p.1 := by
  intro hits
  induction hits with
  | nil => intro b hb; exact hb
  | cons h rest ih =>
    intro b hb
    exact ih (bestUpd h b) (ids_bestUpd hb)

theorem nodup_bestFold_keys (hits : List Hit) :
    ((bestFoldFrom [] hits).map Prod.fst).Nodup := by
  rw [fst_bestFold]
  exact nodup_foldl_seenIns _ _ List.nodup_nil

/-- `dedupe` keeps, for each id, an input hit whose score dominates every
input hit with that id. -/
theorem dedupe_sound (hits : List Hit) :
    ∀ h' ∈ dedupe hits,
      h' ∈ hits ∧ ∀ g ∈ hits, g.id = h'.id → g.score ≤ h'.score := by
  intro h' hmem
  have hmem' : h' ∈ sortDescBy (fun x => x.score)
      ((bestFoldFrom [] hits).map Prod.snd) := hmem
  have hvals : h' ∈ (bestFoldFrom [] hits).map Prod.snd :=
    (sortDescBy_perm (fun x => x.score) _).subset hmem'
  obtain ⟨p, hp, hps⟩ := List.mem_map.mp hvals
  have hlook : alookup p.1 (bestFoldFrom [] hits) = some h' := by
    apply mem_alookup (nodup_bestFold_keys hits)
    rw [← hps]
    exact hp
  obtain ⟨hid, hin, hmax, _⟩ :=
    bestFold_max hits [] p.1 h' (by simp) hlook
  refine ⟨?_, ?_⟩
  · rcases hin with hi | hi
    · exact hi
    · simp [alookup] at hi
  · intro g hg hgid
    exact hmax g hg (by rw [hgid, hid])

/-- Every id occurring in the input appears exactly once in `dedupe`'s output. -/
theorem dedupe_unique (hits : List Hit) (k : String)
    (hk : k ∈ hits.map (fun x => x.id)) :
    ((dedupe hits).filter (fun x => x.id = k)).length = 1 := by
  have hperm := (sortDescBy_perm (fun x => x.score)
    ((bestFoldFrom [] hits).map Prod.snd)).filter (fun x => x.id = k)
  have hlen : ((dedupe hits).filter (fun x => x.id = k)).length =
      (((bestFoldFrom [] hits).map Prod.snd).filter (fun x => x.id = k)).length :=
    hperm.length_eq
  rw [hlen]
  have h1 : ((bestFoldFrom [] hits).map Prod.snd).filter (fun x => x.id = k) =
      ((bestFoldFrom [] hits).filter (fun p => p.2.id = k)).map Prod.snd := by
    rw [List.filter_map]
    rfl
  rw [h1, List.length_map]
  have h2 : (bestFoldFrom [] hits).filter (fun p => p.2.id = k) =
      (bestFoldFrom [] hits).filter (fun p => p.1 = k) := by
    apply List.filter_congr
    intro p hp
    rw [ids_bestFold hits [] (by simp) p hp]
  rw [h2]
  have h3 : ((bestFoldFrom [] hits).filter (fun p => p.1 = k)).length =
      (((bestFoldFrom [] hits).map Prod.fst).filter (fun x => x = k)).length := by
    rw [List.filter_map]
    rw [List.length_map]
    rfl
  rw [h3]
  have hkeys : (bestFoldFrom [] hits).map Prod.fst =
      (hits.map (fun x => x.id)).foldl seenIns [] := by
    rw [fst_bestFold]
    rfl
  rw [hkeys, filter_eq_singleton_of_nodup
    (nodup_foldl_seenIns _ _ List.nodup_nil)
    ((mem_foldl_seenIns k _ _).mpr (Or.inr hk))]
  rfl

/-- **C4 (amended).** In the orchestration pipeline, `dedupe` merges hits with
equal id into a single hit keeping the highest score seen.  In the web
pipeline, `_rrf_fuse` also merges candidates with equal `(source,id)` key into
one output entry, but it retains the fields (score included) of the *first*
occurrence across the input lists; only the `rrf` accumulates. -/
theorem dedup_merge_amended :
    (∀ (hits : List Hit), ∀ h' ∈ dedupe hits,
        h' ∈ hits ∧ ∀ g ∈ hits, g.id = h'.id → g.score ≤ h'.score) ∧
    (∀ (hits : List Hit) (k : String), k ∈ hits.map (fun x => x.id) →
        ((dedupe hits).filter (fun x => x.id = k)).length = 1) ∧
    (∀ (lists : List (List Cand)) (key : String), ∀ fc ∈ _rrf_fuse lists 60,
        fKey fc = key →
          some (Cand.mk fc.source fc.id fc.text fc.score) =
            ((allOcc lists).find? (fun p => candKey p.1 = key)).map Prod.fst) := by
  refine ⟨dedupe_sound, dedupe_unique, ?_⟩
  intro lists key fc hmem hkey
  rw [rrf_fuse_eq] at hmem
  obtain ⟨p, hp, hpf⟩ := List.mem_filterMap.mp hmem
  obtain ⟨c, hc, hcf⟩ := Option.map_eq_some'.mp hpf
  have hpmem : p ∈ fuseScores 60 lists := (sortDescBy_perm Prod.snd _).subset hp
  have hkeymem : p.1 ∈ firstSeenKeys lists := by
    rw [← fst_fuseScores 60 lists]
    exact List.mem_map.mpr ⟨p, hpmem, rfl⟩
  obtain ⟨c₀, hc₀, hck₀, hfind₀⟩ := fuseMeta_lookup (mem_firstSeenKeys.mp hkeymem)
  have hcc : c = c₀ := by
    rw [hc] at hc₀
    exact Option.some.inj hc₀
  subst hcc
  have hkeyp : p.1 = key := by
    rw [← hkey, ← hcf, fKey_mkF, hck₀]
  rw [← hcf]
  show some (Cand.mk c.source c.id c.text c.score) = _
  rw [← hkeyp, hfind₀]

/-- **C4 (counterexample).** The claim fails for `_rrf_fuse`: fusing the same
key with first-seen score 1 and later score 9 yields one merged candidate
whose retained `score` is the first-seen 1, not the highest 9. -/
theorem rrf_fuse_keeps_first_not_max :
    (_rrf_fuse [[Cand.mk "s" "1" "t1" 1], [Cand.mk "s" "1" "t2" 9]] 60).map
        (fun fc => fc.score) = [1] ∧
    (1 : ℚ) < 9 ∧
    (_rrf_fuse [[Cand.mk "s" "1" "t1" 1], [Cand.mk "s" "1" "t2" 9]] 60).map
        (fun fc => fc.score) ≠ [9] := by
  refine ⟨?_, by norm_num, ?_⟩ <;>
    norm_num [_rrf_fuse, enumRank, rrfStepOne, updAdd, metaIns, alookup,
      sortDescBy, insertDescBy, mkF, candKey, List.enum, List.enumFrom,
      List.filterMap_cons, List.filterMap_nil]

/-- Witness for the amended C4 at concrete inputs. -/
theorem dedup_merge_amended_witness :
    ((Hit.mk "a" 9 "x") ∈ [Hit.mk "a" 1 "w", Hit.mk "a" 9 "x"] ∧
      ∀ g ∈ [Hit.mk "a" 1 "w", Hit.mk "a" 9 "x"],
        g.id = (Hit.mk "a" 9 "x").id → g.score ≤ (Hit.mk "a" 9 "x").score) ∧
    (((dedupe [Hit.mk "a" 1 "w", Hit.mk "a" 9 "x"]).filter
        (fun x => x.id = "a")).length = 1) ∧
    some (Cand.mk "s" "1" "t1" 1) =
      ((allOcc [[Cand.mk "s" "1" "t1" 1], [Cand.mk "s" "1" "t2" 9]]).find?
        (fun p => candKey p.1 = "s:1")).map Prod.fst := by
  refine ⟨?_, ?_, ?_⟩
  · exact dedup_merge_amended.1 [Hit.mk "a" 1 "w", Hit.mk "a" 9 "x"]
      (Hit.mk "a" 9 "x") (by decide)
  · exact dedup_merge_amended.2.1 [Hit.mk "a" 1 "w", Hit.mk "a" 9 "x"] "a" (by decide)
  · have hfuse : _rrf_fuse [[Cand.mk "s" "1" "t1" 1], [Cand.mk "s" "1" "t2" 9]] 60 =
        [FCand.mk "s" "1" "t1" 1 (1/(60+1) + 1/(60+1))] := by
      norm_num [_rrf_fuse, enumRank, rrfStepOne, updAdd, metaIns, alookup,
        sortDescBy, insertDescBy, mkF, candKey, List.enum, List.enumFrom,
        List.filterMap_cons, List.filterMap_nil]
    have hmem : FCand.mk "s" "1" "t1" 1 (1/(60+1) + 1/(60+1)) ∈
        _rrf_fuse [[Cand.mk "s" "1" "t1" 1], [Cand.mk "s" "1" "t2" 9]] 60 := by
      rw [hfuse]
      exact List.mem_singleton.mpr rfl
    exact dedup_merge_amended.2.2 [[Cand.mk "s" "1" "t1" 1], [Cand.mk "s" "1" "t2" 9]]
      "s:1" (FCand.mk "s" "1" "t1" 1 (1/(60+1) + 1/(60+1))) hmem (by decide)

theorem bestUpdOpt_bound {sc : ℚ} {i0 : ℕ} {b : Option (ℚ × ℕ)}
    (hb : ∀ v i, b = some (v, i) → i < i0) :
    ∀ v i, bestUpdOpt sc i0 b = some (v, i) → i < i0 + 1 := by
  intro v i heq
  rcases b with _ | ⟨bv, bi⟩
  · cases heq
    omega
  · by_cases hlt : bv < sc
    · simp only [bestUpdOpt, if_pos hlt] at heq
      cases heq
      omega
    · simp only [bestUpdOpt, if_neg hlt] at heq
      cases heq
      exact Nat.lt_succ_of_lt (hb _ _ rfl)

theorem bestUpdOpt_ne_none (sc : ℚ) (i0 : ℕ) (b : Option (ℚ × ℕ)) :
    bestUpdOpt sc i0 b ≠ none := by
  rcases b with _ | ⟨bv, bi⟩
  · simp [bestUpdOpt]
  · by_cases hlt : bv < sc <;> simp [bestUpdOpt, hlt]

theorem bestLoop_bound (lam : ℚ) (sel : List (FCand × Finset String)) :
    ∀ (l : List (FCand × Finset String)) (i0 : ℕ) (b : Option (ℚ × ℕ)),
      (∀ v i, b = some (v, i) → i < i0) →
      match bestLoop lam sel l i0 b with
      | none => b = none ∧ l = []
      | some (_, i) => i < i0 + l.length := by
  intro l
  induction l with
  | nil =>
    intro i0 b hb
    rcases b with _ | ⟨v, i⟩
    · exact ⟨rfl, rfl⟩
    · simpa using hb v i rfl
  | cons c r ih =>
    intro i0 b hb
    have hrec := ih (i0 + 1) (bestUpdOpt (mmrScore lam sel c) i0 b)
      (bestUpdOpt_bound hb)
    show match bestLoop lam sel r (i0 + 1) (bestUpdOpt (mmrScore lam sel c) i0 b) with
      | none => b = none ∧ c :: r = []
      | some (_, i) => i < i0 + (c :: r).length
    rcases hres : bestLoop lam sel r (i0 + 1)
        (bestUpdOpt (mmrScore lam sel c) i0 b) with _ | ⟨v, i⟩
    · rw [hres] at hrec
      exact absurd hrec.1 (bestUpdOpt_ne_none _ _ _)
    · rw [hres] at hrec
      simp only [List.length_cons]
      omega

theorem cons_eraseIdx_perm :
    ∀ {α : Type} (l : List α) (i : ℕ) (h : i < l.length),
      List.Perm (l[i] :: l.eraseIdx i) l := by
  intro α l
  induction l with
  | nil => intro i h; simp at h
  | cons a r ih =>
    intro i h
    cases i with
    | zero => simp [List.eraseIdx]
    | succ j =>
      have hj : j < r.length := by simpa using h
      show List.Perm (r[j] :: a :: r.eraseIdx j) (a :: r)
      exact (List.Perm.swap a r[j] _).trans ((ih j hj).cons a)

theorem subperm_map {α β : Type} (f : α → β) {l₁ l₂ : List α}
    (h : List.Subperm l₁ l₂) : List.Subperm (l₁.map f) (l₂.map f) := by
  obtain ⟨u, hp, hs⟩ := h
  exact ⟨u.map f, hp.map f, hs.map f⟩

theorem mmr_inv (lam : ℚ) :
    ∀ (fuel k : ℕ) (sel rem : List (FCand × Finset String)),
      rem.length ≤ fuel →
      ∃ s, mmrFuel lam fuel k sel rem = sel ++ s ∧ List.Subperm s rem ∧
        (sel ++ s).length = sel.length + min (k - sel.length) rem.length := by
  intro fuel
  induction fuel with
  | zero =>
    intro k sel rem hlen
    have : rem = [] := List.length_eq_zero.mp (Nat.le_zero.mp hlen)
    subst this
    exact ⟨[], by simp [mmrFuel], List.nil_subperm, by simp⟩
  | succ fuel ih =>
    intro k sel rem hlen
    by_cases hstop : rem = [] ∨ k ≤ sel.length
    · refine ⟨[], by simp [mmrFuel, hstop], List.nil_subperm, ?_⟩
      rcases hstop with h | h
      · simp [h]
      · simp [Nat.sub_eq_zero_of_le h]
    · push_neg at hstop
      obtain ⟨hne, hlt⟩ := hstop
      have hcond : ¬(rem = [] ∨ k ≤ sel.length) := by
        push_neg
        exact ⟨hne, hlt⟩
      have hbest := bestLoop_bound lam sel rem 0 none (by simp)
      rcases hres : bestLoop lam sel rem 0 none with _ | ⟨v, idx⟩
      · rw [hres] at hbest
        exact absurd hbest.2 hne
      · rw [hres] at hbest
        have hidx : idx < rem.length := by simpa using hbest
        have hget : rem[idx]? = some rem[idx] := List.getElem?_eq_getElem hidx
        have hlen' : (rem.eraseIdx idx).length ≤ fuel := by
          rw [List.length_eraseIdx]
          simp only [hidx, if_true]
          omega
        obtain ⟨s', heq, hsub, hcnt⟩ := ih k (sel ++ [rem[idx]]) (rem.eraseIdx idx) hlen'
        refine ⟨rem[idx] :: s', ?_, ?_, ?_⟩
        · show mmrFuel lam (fuel + 1) k sel rem = _
          simp only [mmrFuel, if_neg hcond, hres, hget]
          rw [heq, List.append_assoc]
          rfl
        · have h1 : List.Subperm (rem[idx] :: s') (rem[idx] :: rem.eraseIdx idx) :=
            (List.subperm_cons _).mpr hsub
          exact h1.trans (cons_eraseIdx_perm rem idx hidx).subperm
        · have heraseLen : (rem.eraseIdx idx).length = rem.length - 1 := by
            rw [List.length_eraseIdx]
            simp [hidx]
          rw [heraseLen] at hcnt
          simp only [List.length_append, List.length_cons, List.length_nil] at hcnt ⊢
          rw [Nat.min_def] at hcnt ⊢
          split_ifs at hcnt ⊢ <;> omega

/-- **C3.** MMR selection bound: for every candidate list, every `k ≥ 0` and
every `lambda`, the selector returns exactly `min k (number of candidates)`
items, drawn from the input with no element used more than once (the output
is a subpermutation of the input). -/
theorem mmr_select_bound :
    ∀ (candidates : List FCand) (k : ℕ) (lam : ℚ),
      (_mmr_select candidates k lam).length = min k candidates.length ∧
      List.Subperm (_mmr_select candidates k lam) candidates := by
  intro candidates k lam
  by_cases hnil : candidates = []
  · subst hnil
    exact ⟨by simp [_mmr_select], by simp [_mmr_select]⟩
  · obtain ⟨s, heq, hsub, hcnt⟩ := mmr_inv lam
      (candidates.map (fun c => (c, _tokenize_for_similarity c.text))).length k []
      (candidates.map (fun c => (c, _tokenize_for_similarity c.text))) (le_refl _)
    have hout : _mmr_select candidates k lam = s.map Prod.fst := by
      unfold _mmr_select
      rw [if_neg hnil]
      show (mmrFuel lam _ k [] _).map Prod.fst = _
      rw [heq]
      rfl
    constructor
    · rw [hout, List.length_map]
      have := hcnt
      simp only [List.nil_append, List.length_nil, Nat.zero_add, Nat.sub_zero,
        List.length_map] at this
      rw [this]
    · rw [hout]
      have hmap := subperm_map Prod.fst hsub
      have hcand : (candidates.map
          (fun c => (c, _tokenize_for_similarity c.text))).map Prod.fst = candidates := by
        rw [List.map_map]
        exact List.map_id _
      rw [hcand] at hmap
      exact hmap

/-- **C5 (amended).** The reranker falls back to the first `top` candidates
unchanged when the API key is missing, the candidate list is empty, the call
raises, JSON parsing raises, or any parsed entry is malformed in a way that
raises (non-numeric index, non-numeric score).  However, a response that does
not even start with `[` yields the *empty list*, not the pre-rerank fallback.
Entries that are not dicts, lack an `"index"` key, or have an in-bounds check
failing integer index are dropped silently. -/
theorem rerank_fallback_amended :
    (∀ (cands : List FCand) (top : ℕ) (call : Except Unit (Option String))
        (parse : String → Except Unit JV) (key : Bool),
        key = false ∨ cands = [] →
        _rerank_llm cands top key call parse = cands.take top) ∧
    (∀ (cands : List FCand) (top : ℕ) (key : Bool)
        (parse : String → Except Unit JV) (e : Unit),
        _rerank_llm cands top key (.error e) parse = cands.take top) ∧
    (∀ (cands : List FCand) (top : ℕ) (parse : String → Except Unit JV)
        (s : String), cands ≠ [] → s ≠ "" →
        headIs (fun c => c = '[') (stripPy s.data) = false →
        _rerank_llm cands top true (.ok (some s)) parse = []) ∧
    (∀ (cands : List FCand) (top : ℕ) (parse : String → Except Unit JV)
        (s : String), cands ≠ [] → s ≠ "" →
        headIs (fun c => c = '[') (stripPy s.data) = true →
        parse s = .error () →
        _rerank_llm cands top true (.ok (some s)) parse = cands.take top) ∧
    (∀ (cands : List FCand) (v : JV) (rest : List JV),
        (∀ fields, v ≠ .jobj fields) →
        scoreEntries cands (v :: rest) = scoreEntries cands rest) ∧
    (∀ (cands : List FCand) (fields : List (String × JV)) (rest : List JV),
        alookup "index" fields = none →
        scoreEntries cands (.jobj fields :: rest) = scoreEntries cands rest) ∧
    (∀ (cands : List FCand) (fields : List (String × JV)) (rest : List JV)
        (n : ℤ), alookup "index" fields = some (.jint n) →
        ¬(0 ≤ n ∧ n < (cands.length : ℤ)) →
        scoreEntries cands (.jobj fields :: rest) = scoreEntries cands rest) ∧
    (∀ (cands : List FCand) (fields : List (String × JV)) (rest : List JV)
        (s : String), alookup "index" fields = some (.jstr s) →
        scoreEntries cands (.jobj fields :: rest) = .error ()) ∧
    (∀ (cands : List FCand) (top : ℕ) (s : String)
        (parse : String → Except Unit JV) (v : JV) (entries : List JV),
        cands ≠ [] → s ≠ "" →
        headIs (fun c => c = '[') (stripPy s.data) = true →
        parse s = .ok v → iterJV v = .ok entries →
        scoreEntries cands entries = .error () →
        _rerank_llm cands top true (.ok (some s)) parse = cands.take top) := by
  refine ⟨?_, ?_, ?_, ?_, ?_, ?_, ?_, ?_, ?_⟩
  · intro cands top call parse key h
    unfold _rerank_llm
    rw [if_pos]
    rcases h with h | h
    · exact Or.inl h
    · exact Or.inr h
  · intro cands top key parse e
    unfold _rerank_llm
    by_cases h : key = false ∨ cands = []
    · rw [if_pos h]
    · rw [if_neg h]
  · intro cands top parse s hcands hs hhead
    unfold _rerank_llm
    rw [if_neg (by simp [hcands])]
    show (match (if headIs (fun c => c = '[')
        (stripPy (if s = "" then "[]" else s).data) then parse (if s = "" then "[]" else s)
        else .ok (.jarr [])) with
      | .error _ => cands.take top
      | .ok v => _) = ([] : List FCand)
    rw [if_neg hs, if_neg (by simp [hhead])]
    show List.take top (List.map Prod.fst (sortDescBy Prod.snd
      ([] : List (FCand × ℚ)))) = ([] : List FCand)
    exact List.take_nil
  · intro cands top parse s hcands hs hhead hparse
    unfold _rerank_llm
    rw [if_neg (by simp [hcands])]
    show (match (if headIs (fun c => c = '[')
        (stripPy (if s = "" then "[]" else s).data) then parse (if s = "" then "[]" else s)
        else .ok (.jarr [])) with
      | .error _ => cands.take top
      | .ok v => _) = cands.take top
    rw [if_neg hs, if_pos (by simp [hhead]), hparse]
  · intro cands v rest hv
    cases v with
    | jobj fields => exact absurd rfl (hv fields)
    | jnull => rfl
    | jbool b => rfl
    | jint n => rfl
    | jnum q => rfl
    | jstr s => rfl
    | jarr l => rfl
  · intro cands fields rest h
    show (match alookup "index" fields with
      | none => scoreEntries cands rest
      | some iv => _) = scoreEntries cands rest
    rw [h]
  · intro cands fields rest n h hn
    show (match alookup "index" fields with
      | none => scoreEntries cands rest
      | some iv => _) = scoreEntries cands rest
    rw [h]
    show (match cmpRangeJV cands.length (.jint n) with
      | .error e => .error e
      | .ok false => scoreEntries cands rest
      | .ok true => _) = scoreEntries cands rest
    have : cmpRangeJV cands.length (.jint n) = .ok false := by
      simp only [cmpRangeJV]
      rw [decide_eq_false hn]
    rw [this]
  · intro cands fields rest s h
    show (match alookup "index" fields with
      | none => scoreEntries cands rest
      | some iv => _) = Except.error ()
    rw [h]
    rfl
  · intro cands top s parse v entries hcands hs hhead hparse hiter hscore
    unfold _rerank_llm
    rw [if_neg (by simp [hcands])]
    show (match (if headIs (fun c => c = '[')
        (stripPy (if s = "" then "[]" else s).data) then parse (if s = "" then "[]" else s)
        else .ok (.jarr [])) with
      | .error _ => cands.take top
      | .ok v => _) = cands.take top
    rw [if_neg hs, if_pos (by simp [hhead]), hparse]
    show (match iterJV v with
      | .error _ => cands.take top
      | .ok entries => _) = cands.take top
    rw [hiter]
    show (match scoreEntries cands entries with
      | .error _ => cands.take top
      | .ok scored => _) = cands.take top
    rw [hscore]

/-- **C5 (counterexample).** The claim fails as stated: a response that is not
parseable as the expected structured array (here, plain prose) makes the
reranker return the *empty list*, not the first `top` candidates in their
original order. -/
theorem rerank_prose_returns_empty :
    _rerank_llm [FCand.mk "s" "1" "a" 1 1, FCand.mk "s" "2" "b" 1 1] 2 true
        (.ok (some "no json here")) (fun _ => .error ()) = [] ∧
    ([] : List FCand) ≠
      [FCand.mk "s" "1" "a" 1 1, FCand.mk "s" "2" "b" 1 1].take 2 := by
  exact ⟨by decide, by decide⟩

/-- Witness for the amended C5 at concrete inputs. -/
theorem rerank_fallback_amended_witness :
    (_rerank_llm [FCand.mk "s" "1" "a" 1 1] 3 false (.ok none)
        (fun _ => .error ()) = [FCand.mk "s" "1" "a" 1 1].take 3) ∧
    (_rerank_llm [FCand.mk "s" "1" "a" 1 1] 3 true (.error ())
        (fun _ => .error ()) = [FCand.mk "s" "1" "a" 1 1].take 3) ∧
    (_rerank_llm [FCand.mk "s" "1" "a" 1 1] 5 true (.ok (some "prose"))
        (fun _ => .error ()) = []) ∧
    (_rerank_llm [FCand.mk "s" "1" "a" 1 1] 5 true (.ok (some "[oops"))
        (fun _ => .error ()) = [FCand.mk "s" "1" "a" 1 1].take 5) ∧
    (scoreEntries [FCand.mk "s" "1" "a" 1 1] [.jstr "x"] =
      scoreEntries [FCand.mk "s" "1" "a" 1 1] []) ∧
    (scoreEntries [FCand.mk "s" "1" "a" 1 1] [.jobj [("note", .jint 0)]] =
      scoreEntries [FCand.mk "s" "1" "a" 1 1] []) ∧
    (scoreEntries [FCand.mk "s" "1" "a" 1 1] [.jobj [("index", .jint 5)]] =
      scoreEntries [FCand.mk "s" "1" "a" 1 1] []) ∧
    (scoreEntries [FCand.mk "s" "1" "a" 1 1] [.jobj [("index", .jstr "x")]] =
      .error ()) ∧
    (_rerank_llm [FCand.mk "s" "1" "a" 1 1] 4 true (.ok (some "[malformed"))
        (fun _ => .ok (.jarr [.jobj [("index", .jstr "x")]])) =
      [FCand.mk "s" "1" "a" 1 1].take 4) := by
  refine ⟨?_, ?_, ?_, ?_, ?_, ?_, ?_, ?_, ?_⟩
  · exact rerank_fallback_amended.1 _ 3 _ _ false (Or.inl rfl)
  · exact rerank_fallback_amended.2.1 _ 3 true _ ()
  · exact rerank_fallback_amended.2.2.1 _ 5 _ "prose" (by decide) (by decide) (by decide)
  · exact rerank_fallback_amended.2.2.2.1 _ 5 _ "[oops" (by decide) (by decide)
      (by decide) rfl
  · exact rerank_fallback_amended.2.2.2.2.1 _ (.jstr "x") []
      (fun fields h => JV.noConfusion h)
  · exact rerank_fallback_amended.2.2.2.2.2.1 _ [("note", .jint 0)] [] rfl
  · exact rerank_fallback_amended.2.2.2.2.2.2.1 _ [("index", .jint 5)] [] 5 rfl
      (by decide)
  · exact rerank_fallback_amended.2.2.2.2.2.2.2.1 _ [("index", .jstr "x")] [] "x" rfl
  · exact rerank_fallback_amended.2.2.2.2.2.2.2.2 _ 4 "[malformed" _
      (.jarr [.jobj [("index", .jstr "x")]]) [.jobj [("index", .jstr "x")]]
      (by decide) (by decide) (by decide) rfl rfl
      (rerank_fallback_amended.2.2.2.2.2.2.2.1 _ [("index", .jstr "x")] [] "x" rfl)

theorem take_singleton_succ (qs : String) (n : ℕ) :
    ([qs] : List String).take (1 + n) = [qs] := by
  apply List.take_of_length_le
  simp

theorem firstListValue_shape :
    ∀ (fields : List (String × JV)) (w : JV),
      firstListValue fields = some w → ∃ l, w = .jarr l := by
  intro fields
  induction fields with
  | nil => intro w h; simp [firstListValue] at h
  | cons e r ih =>
    intro w h
    obtain ⟨k, v⟩ := e
    cases v with
    | jarr l =>
      simp only [firstListValue, Option.some.injEq] at h
      exact ⟨l, h.symm⟩
    | jnull => exact ih w h
    | jbool b => exact ih w h
    | jint n => exact ih w h
    | jnum q => exact ih w h
    | jstr s => exact ih w h
    | jobj fs => exact ih w h

/-- Every run of the expander returns either exactly `[query]` or the query
followed by at most four model variants. -/
theorem gen_exp_cases (qs : String) (key : Bool) (call : Except Unit (Option String))
    (parse : String → Except Unit JV) (maxExp : ℕ) :
    _generate_query_expansions qs key call parse maxExp = [qs] ∨
    ∃ l : List JV, _generate_query_expansions qs key call parse maxExp =
      qs :: expTail qs l := by
  unfold _generate_query_expansions
  by_cases hkey : key = false
  · rw [if_pos hkey]
    exact Or.inl rfl
  · rw [if_neg hkey]
    repeat' split
    all_goals try exact Or.inl (take_singleton_succ qs maxExp)
    all_goals exact Or.inr ⟨_, rfl⟩

theorem expTail_length_le (qs : String) (l : List JV) : (expTail qs l).length ≤ 4 := by
  unfold expTail
  rw [List.length_take]
  exact min_le_left _ _

theorem mem_expTail {qs : String} {l : List JV} {x : String} (h : x ∈ expTail qs l) :
    x ∈ l.filterMap pyStrOfJVitem ∧ pyStripStr x ≠ qs := by
  unfold expTail at h
  have h2 := (List.take_sublist 4 _).subset h
  have h3 := List.mem_filter.mp h2
  have h4 := List.mem_filter.mp h3.1
  refine ⟨h4.1, ?_⟩
  have := h3.2
  simp only [decide_eq_true_eq, Bool.and_eq_true] at this
  exact this.2

/-- **C6 (amended).** The expander always returns the original query first; on
any failure (no key, call raised, parse raised, response not a list) it
returns exactly `[query]`; the result never exceeds 5 entries.  On success the
variants are the model's stringified items with entries strip-equal to the
original query excluded, capped at 4 — duplicates among the variants are
*retained* (no deduplication against already-present items), and the
configured maximum (`RAG_EXPANSIONS`) applies only on the failure path. -/
theorem query_expander_amended :
    (∀ (qs : String) (key : Bool) (call : Except Unit (Option String))
        (parse : String → Except Unit JV) (maxExp : ℕ),
        (_generate_query_expansions qs key call parse maxExp).head? = some qs) ∧
    (∀ (qs : String) (call : Except Unit (Option String))
        (parse : String → Except Unit JV) (maxExp : ℕ),
        _generate_query_expansions qs false call parse maxExp = [qs]) ∧
    (∀ (qs : String) (parse : String → Except Unit JV) (maxExp : ℕ) (e : Unit),
        _generate_query_expansions qs true (.error e) parse maxExp = [qs]) ∧
    (∀ (qs : String) (parse : String → Except Unit JV) (maxExp : ℕ) (s : String),
        s ≠ "" → parse s = .error () →
        _generate_query_expansions qs true (.ok (some s)) parse maxExp = [qs]) ∧
    (∀ (qs : String) (parse : String → Except Unit JV) (maxExp : ℕ) (s : String)
        (n : ℤ), s ≠ "" → parse s = .ok (.jint n) →
        _generate_query_expansions qs true (.ok (some s)) parse maxExp = [qs]) ∧
    (∀ (qs : String) (key : Bool) (call : Except Unit (Option String))
        (parse : String → Except Unit JV) (maxExp : ℕ),
        (_generate_query_expansions qs key call parse maxExp).length ≤ 5) ∧
    (∀ (qs : String) (parse : String → Except Unit JV) (maxExp : ℕ) (s : String)
        (l : List JV), s ≠ "" → parse s = .ok (.jarr l) →
        _generate_query_expansions qs true (.ok (some s)) parse maxExp =
          qs :: expTail qs l ∧
        ∀ x ∈ expTail qs l, x ∈ l.filterMap pyStrOfJVitem ∧ pyStripStr x ≠ qs) := by
  refine ⟨?_, ?_, ?_, ?_, ?_, ?_, ?_⟩
  · intro qs key call parse maxExp
    rcases gen_exp_cases qs key call parse maxExp with h | ⟨l, h⟩ <;> rw [h] <;> rfl
  · intro qs call parse maxExp
    unfold _generate_query_expansions
    rw [if_pos rfl]
  · intro qs parse maxExp e
    unfold _generate_query_expansions
    rw [if_neg (by simp)]
    exact take_singleton_succ qs maxExp
  · intro qs parse maxExp s hs hparse
    unfold _generate_query_expansions
    rw [if_neg (by simp)]
    show (match parse (if s = "" then "[]" else s) with
      | .error _ => ([qs] : List String).take (1 + maxExp)
      | .ok v =>
        match (match v with
          | .jobj fields => (firstListValue fields).getD (.jobj fields)
          | x => x) with
        | .jarr l => [qs] ++ expTail qs l
        | _ => ([qs] : List String).take (1 + maxExp)) = [qs]
    rw [if_neg hs, hparse]
    exact take_singleton_succ qs maxExp
  · intro qs parse maxExp s n hs hparse
    unfold _generate_query_expansions
    rw [if_neg (by simp)]
    show (match parse (if s = "" then "[]" else s) with
      | .error _ => ([qs] : List String).take (1 + maxExp)
      | .ok v =>
        match (match v with
          | .jobj fields => (firstListValue fields).getD (.jobj fields)
          | x => x) with
        | .jarr l => [qs] ++ expTail qs l
        | _ => ([qs] : List String).take (1 + maxExp)) = [qs]
    rw [if_neg hs, hparse]
    exact take_singleton_succ qs maxExp
  · intro qs key call parse maxExp
    rcases gen_exp_cases qs key call parse maxExp with h | ⟨l, h⟩ <;> rw [h]
    · simp
    · have := expTail_length_le qs l
      simp only [List.length_cons]
      omega
  · intro qs parse maxExp s l hs hparse
    constructor
    · unfold _generate_query_expansions
      rw [if_neg (by simp)]
      show (match parse (if s = "" then "[]" else s) with
        | .error _ => ([qs] : List String).take (1 + maxExp)
        | .ok v =>
          match (match v with
            | .jobj fields => (firstListValue fields).getD (.jobj fields)
            | x => x) with
          | .jarr l => [qs] ++ expTail qs l
          | _ => ([qs] : List String).take (1 + maxExp)) = qs :: expTail qs l
      rw [if_neg hs, hparse]
      rfl
    · intro x hx
      exact mem_expTail hx

/-- **C6 (counterexample).** The claim's deduplication clause fails: with the
model returning `["a","a"]` the expander returns `["q0","a","a"]`, which
contains a duplicate, and with `RAG_EXPANSIONS = 0` configured the success
path still returns 3 entries (the cap applies only on the failure path). -/
theorem gen_expansions_no_dedup :
    _generate_query_expansions "q0" true (.ok (some "x"))
        (fun _ => .ok (.jarr [.jstr "a", .jstr "a"])) 0 = ["q0", "a", "a"] ∧
    ¬ (["q0", "a", "a"] : List String).Nodup ∧
    (1 + 0 : ℕ) < (["q0", "a", "a"] : List String).length := by
  exact ⟨by decide, by decide, by decide⟩

/-- Witness for the amended C6 at concrete inputs. -/
theorem query_expander_amended_witness :
    (_generate_query_expansions "w" true (.ok (some "bad"))
        (fun _ => .error ()) 3 = ["w"]) ∧
    (_generate_query_expansions "w" true (.ok (some "7"))
        (fun _ => .ok (.jint 7)) 3 = ["w"]) ∧
    (_generate_query_expansions "w" true (.ok (some "[w2]"))
        (fun _ => .ok (.jarr [.jstr "w2"])) 2 = "w" :: expTail "w" [.jstr "w2"] ∧
      ∀ x ∈ expTail "w" [.jstr "w2"],
        x ∈ ([JV.jstr "w2"] : List JV).filterMap pyStrOfJVitem ∧ pyStripStr x ≠ "w") := by
  refine ⟨?_, ?_, ?_⟩
  · exact query_expander_amended.2.2.2.1 "w" _ 3 "bad" (by decide) rfl
  · exact query_expander_amended.2.2.2.2.1 "w" _ 3 "7" 7 (by decide) rfl
  · exact query_expander_amended.2.2.2.2.2.2 "w" _ 2 "[w2]" [.jstr "w2"]
      (by decide) rfl

/-- **C7.** Cache policy: a query rebuilds the index iff it was never built or
its age strictly exceeds the TTL; two queries within the TTL window after a
build both use the same cached index with no further corpus load; the first
query after TTL expiry triggers exactly one rebuild, which a follow-up query
within the new window reuses. -/
theorem bm25_cache_policy :
    (∀ (ttl now : ℚ) (st : Option BmIndex) (nextId : ℕ),
        (_get_bm25_state ttl now st nextId).rebuilt = true ↔
          st = none ∨ ∃ s, st = some s ∧ ttl < now - s.built_at) ∧
    (∀ (ttl t0 t1 t2 : ℚ) (i n : ℕ), t1 - t0 ≤ ttl → t2 - t0 ≤ ttl →
        (_get_bm25_state ttl t1 (some ⟨t0, i⟩) n).rebuilt = false ∧
        (_get_bm25_state ttl t1 (some ⟨t0, i⟩) n).used = ⟨t0, i⟩ ∧
        (_get_bm25_state ttl t2 (_get_bm25_state ttl t1 (some ⟨t0, i⟩) n).store
          (_get_bm25_state ttl t1 (some ⟨t0, i⟩) n).nextId).rebuilt = false ∧
        (_get_bm25_state ttl t2 (_get_bm25_state ttl t1 (some ⟨t0, i⟩) n).store
          (_get_bm25_state ttl t1 (some ⟨t0, i⟩) n).nextId).used = ⟨t0, i⟩ ∧
        (_get_bm25_state ttl t2 (_get_bm25_state ttl t1 (some ⟨t0, i⟩) n).store
          (_get_bm25_state ttl t1 (some ⟨t0, i⟩) n).nextId).nextId = n) ∧
    (∀ (ttl t0 t1 t2 : ℚ) (i n : ℕ), ttl < t1 - t0 → t2 - t1 ≤ ttl →
        (_get_bm25_state ttl t1 (some ⟨t0, i⟩) n).rebuilt = true ∧
        (_get_bm25_state ttl t1 (some ⟨t0, i⟩) n).used = ⟨t1, n⟩ ∧
        (_get_bm25_state ttl t1 (some ⟨t0, i⟩) n).nextId = n + 1 ∧
        (_get_bm25_state ttl t2 (_get_bm25_state ttl t1 (some ⟨t0, i⟩) n).store
          (_get_bm25_state ttl t1 (some ⟨t0, i⟩) n).nextId).rebuilt = false ∧
        (_get_bm25_state ttl t2 (_get_bm25_state ttl t1 (some ⟨t0, i⟩) n).store
          (_get_bm25_state ttl t1 (some ⟨t0, i⟩) n).nextId).used = ⟨t1, n⟩ ∧
        (_get_bm25_state ttl t2 (_get_bm25_state ttl t1 (some ⟨t0, i⟩) n).store
          (_get_bm25_state ttl t1 (some ⟨t0, i⟩) n).nextId).nextId = n + 1) := by
  refine ⟨?_, ?_, ?_⟩
  · intro ttl now st nextId
    rcases st with _ | s
    · simp [_get_bm25_state]
    · by_cases h : ttl < now - s.built_at
      · simp [_get_bm25_state, h]
      · simp [_get_bm25_state, h]
  · intro ttl t0 t1 t2 i n h1 h2
    have hn1 : ¬(ttl < t1 - t0) := not_lt.mpr (by linarith)
    have hn2 : ¬(ttl < t2 - t0) := not_lt.mpr (by linarith)
    simp [_get_bm25_state, hn1, hn2]
  · intro ttl t0 t1 t2 i n h1 h2
    have hn2 : ¬(ttl < t2 - t1) := not_lt.mpr (by linarith)
    simp [_get_bm25_state, h1, hn2]

/-- Witness for C7 at concrete times (`ttl = 300`). -/
theorem bm25_cache_policy_witness :
    ((100 : ℚ) - 0 ≤ 300 ∧ (200 : ℚ) - 0 ≤ 300 ∧
      (_get_bm25_state 300 100 (some ⟨0, 7⟩) 8).rebuilt = false ∧
      (_get_bm25_state 300 200 (_get_bm25_state 300 100 (some ⟨0, 7⟩) 8).store
        (_get_bm25_state 300 100 (some ⟨0, 7⟩) 8).nextId).used = ⟨0, 7⟩) ∧
    ((300 : ℚ) < 301 - 0 ∧ (400 : ℚ) - 301 ≤ 300 ∧
      (_get_bm25_state 300 301 (some ⟨0, 7⟩) 8).rebuilt = true ∧
      (_get_bm25_state 300 400 (_get_bm25_state 300 301 (some ⟨0, 7⟩) 8).store
        (_get_bm25_state 300 301 (some ⟨0, 7⟩) 8).nextId).nextId = 9) := by
  have h1 : (100 : ℚ) - 0 ≤ 300 := by norm_num
  have h2 : (200 : ℚ) - 0 ≤ 300 := by norm_num
  have h3 : (300 : ℚ) < 301 - 0 := by norm_num
  have h4 : (400 : ℚ) - 301 ≤ 300 := by norm_num
  obtain ⟨ha, _, hc, hd, _⟩ := bm25_cache_policy.2.1 300 0 100 200 7 8 h1 h2
  obtain ⟨he, _, hg, hh, _, hj⟩ := bm25_cache_policy.2.2 300 0 301 400 7 8 h3 h4
  exact ⟨⟨h1, h2, ha, hd⟩, ⟨h3, h4, he, by rw [hg] at hj ⊢; exact hj⟩⟩

/-- **C8 (counterexample).** The corpus loader itself does not exclude
entries whose text is empty after cleaning: a `documents` row with empty
content is returned with empty text. -/
theorem load_corpus_keeps_empty :
    _load_corpus [] [("1", some "")] [] 1500 = [("documents:1", "")] ∧
    ¬ (∀ p ∈ _load_corpus [] [("1", some "")] [] 1500, p.2 ≠ "") := by
  exact ⟨by decide, by decide⟩

/-- **C8 (amended).** The loader applies `clean_text` but may return
empty-text entries; the exclusion happens when the BM25 index is built: every
kept row has a non-empty token list (hence non-empty normalized text). -/
theorem bm25_rows_nonempty (gas docs embs : List (String × Option String))
    (limit : ℕ) :
    ∀ p ∈ _build_bm25_rows gas docs embs limit,
      pySplit p.2 ≠ [] ∧ p.2 ≠ "" := by
  intro p hp
  obtain ⟨r, _, hr⟩ := List.mem_filterMap.mp hp
  by_cases hc : pySplit (normalize_text r.2) = []
  · rw [if_pos hc] at hr
    cases hr
  · rw [if_neg hc] at hr
    cases hr
    refine ⟨hc, ?_⟩
    intro hempty
    have hempty' : normalize_text r.2 = "" := hempty
    rw [hempty'] at hc
    exact hc (by decide)

/-- Witness for the amended C8 at a concrete corpus. -/
theorem bm25_rows_nonempty_witness :
    (("gasable_index:a", "hello world") ∈
      _build_bm25_rows [("a", some "hello world")] [("1", some "")] [] 1500) ∧
    (pySplit "hello world" ≠ [] ∧ "hello world" ≠ "") :=
  ⟨by decide, bm25_rows_nonempty [("a", some "hello world")] [("1", some "")] [] 1500
    ("gasable_index:a", "hello world") (by decide)⟩

theorem stripPy_all_space {l : List Char} (h : l.all isSpacePy = true) :
    stripPy l = [] := by
  unfold stripPy
  have h1 : l.dropWhile isSpacePy = [] := by
    rw [List.dropWhile_eq_nil_iff]
    intro x hx
    exact (List.all_eq_true.mp h) x hx
  rw [h1]
  rfl

/-- **C9.** Empty-query rejection: a payload whose query string is empty or
whitespace-only yields the "Empty query" error, and the response does not
depend on the retrieval pipeline at all (no retrieval sub-signal is
invoked). -/
theorem api_query_empty_rejected (payloadQ : Option String)
    (h : (payloadQ.getD "").data.all isSpacePy = true) :
    ∀ (retrieve retrieve' : String → List (String × String × ℚ)),
      api_query retrieve payloadQ = .error "Empty query" ∧
      api_query retrieve payloadQ = api_query retrieve' payloadQ := by
  intro retrieve retrieve'
  have hq : pyStripStr (payloadQ.getD "") = "" := by
    unfold pyStripStr
    rw [stripPy_all_space h]
  unfold api_query
  constructor
  · rw [if_pos hq]
  · rw [if_pos hq, if_pos hq]

/-- Witness for C9: the whitespace-only payload `"   "` is rejected under two
different retrieval pipelines. -/
theorem api_query_empty_rejected_witness :
    api_query (fun _ => []) (some "   ") = .error "Empty query" ∧
    api_query (fun _ => []) (some "   ") =
      api_query (fun q => [(q, q, 1)]) (some "   ") :=
  api_query_empty_rejected (some "   ") (by decide) (fun _ => [])
    (fun q => [(q, q, 1)])

end GasableHub
